import Mathlib

/-!
Verification of the icepick library (src/icepick.js): persistent,
structurally-shared updates over frozen hierarchies of JS objects and arrays.

The embedding models the JS heap explicitly: a store is a list of nodes
(objects as ordered field lists, arrays as lists of optional values, where
`none` is an array hole), and a JS value is a primitive or a reference (a
store address).  Reference equality of JS objects is address equality, so
the library's identity guarantees (`===`) become equalities of `JSVal`.
`Object.freeze` state is a separate list of frozen addresses, since freezing
mutates only a flag and never the structure of a node.

The source is 2013-era ES5 code; the embedding uses ES5 semantics:
`Object.keys` and `Object.freeze` applied to a primitive throw a TypeError,
and reading a property of `undefined` or `null` throws a TypeError, while
property reads on numbers and booleans return `undefined` (primitive boxing).

Out of the modeled state space are string-valued primitives used as
indexable values, non-index ("expando") properties on arrays and the
special array `length` property: the spec's data model has only map nodes
keyed by strings and sequence nodes indexed by integers.
-/

set_option autoImplicit false

namespace Icepick

/-- A JS runtime value: a primitive or a reference to a heap node. -/
inductive JSVal where
  | undef : JSVal
  | null : JSVal
  | num (n : Int) : JSVal
  | bool (b : Bool) : JSVal
  | ref (a : Nat) : JSVal
  deriving DecidableEq, Repr

/-- A heap node: an object (ordered own fields) or an array
(`none` entries are holes). -/
inductive Node where
  | obj (fields : List (String × JSVal)) : Node
  | arr (elems : List (Option JSVal)) : Node
  deriving DecidableEq, Repr

instance : Inhabited Node := ⟨.obj []⟩

/-- A property key as supplied by a caller: a string or a numeric index. -/
inductive Key where
  | str (s : String) : Key
  | idx (n : Nat) : Key
  deriving DecidableEq, Repr

/-- JS coerces property keys to strings. -/
def keyStr : Key → String
  | .str s => s
  | .idx n => toString n

/-- A string is a canonical array index when it is the decimal numeral of
some natural number. -/
def canonIdx (s : String) : Option Nat :=
  match s.toNat? with
  | some n => if toString n = s then some n else none
  | none => none

/-- The array index denoted by a key, when it denotes one. -/
def keyIdx : Key → Option Nat
  | .idx n => some n
  | .str s => canonIdx s

theorem keyIdx_some_keyStr {k : Key} {n : Nat} (h : keyIdx k = some n) :
    keyStr k = toString n := by
  cases k with
  | idx m => simp [keyIdx] at h; simp [keyStr, h]
  | str s =>
    simp [keyIdx, canonIdx] at h
    cases hs : s.toNat? with
    | none => rw [hs] at h; exact absurd h (by simp)
    | some m =>
      rw [hs] at h
      by_cases hm : toString m = s
      · simp [hm] at h; simpa [keyStr, h] using hm.symm
      · simp [hm] at h

/-- Reading an entry of an object's field list (`undefined` when absent). -/
def getField : List (String × JSVal) → String → JSVal
  | [], _ => (JSVal.undef)
  | (s, v) :: rest, key => if s = key then v else getField rest key

/-- Writing a field: an existing key is updated in place (its position is
kept), a new key is appended, matching JS own-property insertion order. -/
def setField : List (String × JSVal) → String → JSVal → List (String × JSVal)
  | [], key, v => [(key, v)]
  | (s, w) :: rest, key, v =>
    if s = key then (s, v) :: rest else (s, w) :: setField rest key v

/-- `delete obj[key]`: the field is removed from the own-property list. -/
def delField (fs : List (String × JSVal)) (key : String) : List (String × JSVal) :=
  fs.filter (fun p => decide (p.1 ≠ key))

/-- Reading an array slot: out of bounds and holes both give `none`. -/
def optGet : List (Option JSVal) → Nat → Option JSVal
  | [], _ => none
  | x :: _, 0 => x
  | _ :: rest, n + 1 => optGet rest n

/-- `arr[n]` as a JS value: a hole or an out-of-bounds read is `undefined`. -/
def arrGet (es : List (Option JSVal)) (n : Nat) : JSVal :=
  (optGet es n).getD (JSVal.undef)

/-- `arr[n] = v`: writes in bounds, or extends the array to length `n + 1`
padding with holes, as JS assignment to an index past the end does. -/
def arrSet : List (Option JSVal) → Nat → JSVal → List (Option JSVal)
  | [], 0, v => [some v]
  | [], n + 1, v => none :: arrSet [] n v
  | _ :: rest, 0, v => some v :: rest
  | x :: rest, n + 1, v => x :: arrSet rest n v

/-- `delete arr[n]`: leaves a hole, the length never changes; deleting out
of bounds is a no-op. -/
def arrDel : List (Option JSVal) → Nat → List (Option JSVal)
  | [], _ => []
  | _ :: rest, 0 => none :: rest
  | x :: rest, n + 1 => x :: arrDel rest n

/-- Property read on a node.  On arrays, only canonical index keys are in
the modeled state space (no `length`, no expando properties). -/
def Node.get : Node → Key → JSVal
  | .obj fs, k => getField fs (keyStr k)
  | .arr es, k =>
    match keyIdx k with
    | some n => arrGet es n
    | none => (JSVal.undef)

/-- Property write on a (non-frozen) node. -/
def Node.set : Node → Key → JSVal → Node
  | .obj fs, k, v => .obj (setField fs (keyStr k) v)
  | .arr es, k, v =>
    match keyIdx k with
    | some n => .arr (arrSet es n v)
    | none => .arr es

/-- Property delete on a (non-frozen) node. -/
def Node.del : Node → Key → Node
  | .obj fs, k => .obj (delField fs (keyStr k))
  | .arr es, k =>
    match keyIdx k with
    | some n => .arr (arrDel es n)
    | none => .arr es

/-- `key in coll`: whether the key exists as an own property of the node
(a hole or an out-of-bounds index of an array, and a missing object
field, do not; a field stored as `undefined` does). -/
def Node.hasKey : Node → Key → Bool
  | .obj fs, k => fs.any (fun p => decide (p.1 = keyStr k))
  | .arr es, k =>
    match keyIdx k with
    | some n => (optGet es n).isSome
    | none => false

/-- The values of a node's own enumerable properties in `Object.keys`
order: field order for objects, present elements in index order for
arrays (holes are skipped by `Object.keys`). -/
def Node.vals : Node → List JSVal
  | .obj fs => fs.map Prod.snd
  | .arr es => es.filterMap id

/-- `weCareAbout` (src/icepick.js line 16): non-null objects and arrays,
i.e. exactly the references of the model. -/
def weCareAbout : JSVal → Bool
  | .ref _ => true
  | _ => false

/-- A value is a primitive when it is not a container reference. -/
def isPrim : JSVal → Bool
  | .ref _ => false
  | _ => true

/-- Errors surfaced by the library: JS TypeError (indexing `undefined` or
`null`, `Object.keys`/`Object.freeze` of a primitive under ES5) and the
reference-cycle error thrown by `baseFreeze`. -/
inductive Err where
  | typeError : Err
  | cycleError : Err
  deriving DecidableEq, Repr

/-- The heap: node at address `a` is `nodes.getD a default`. -/
abbrev Store := List Node

/-- The node a reference denotes. -/
def nodeAt (st : Store) (a : Nat) : Node := st.getD a default

/-- One step of property lookup, `val[key]`:  throws on `undefined`/`null`,
boxes numbers and booleans (yielding `undefined`), reads the node of a
reference. -/
def getStep (st : Store) (v : JSVal) (k : Key) : Except Err JSVal :=
  match v with
  | .undef => .error .typeError
  | .null => .error .typeError
  | .num _ => .ok (JSVal.undef)
  | .bool _ => .ok (JSVal.undef)
  | .ref a => .ok ((nodeAt st a).get k)

/-- `baseGet` (src/icepick.js line 138): fold of `val[key]` over the path. -/
def baseGet (st : Store) : JSVal → List Key → Except Err JSVal
  | coll, [] => .ok coll
  | coll, k :: rest =>
    match getStep st coll k with
    | .ok w => baseGet st w rest
    | .error e => .error e

/-- `getIn`: `path` may be `null`/`undefined` (`none`), in which case
`path || []` makes it the empty path. -/
def getIn (st : Store) (coll : JSVal) (path : Option (List Key)) : Except Err JSVal :=
  baseGet st coll (path.getD [])

/-- `arrayClone`/`objClone`/`clone` applied to the node of a reference:
objects keep their field list, arrays are rebuilt index by index, so a
hole is read as `undefined` and stored as a present `undefined`. -/
def cloneNode : Node → Node
  | .obj fs => .obj fs
  | .arr es => .arr (es.map (fun o => some (o.getD .undef)))

/-- `clone` (src/icepick.js line 45): allocates a fresh, unfrozen shallow
copy.  Under ES5, cloning a primitive throws: `Array.isArray` is false and
`objClone`'s `Object.keys` rejects non-objects with a TypeError. -/
def clone (st : Store) (coll : JSVal) : Except Err (Store × Nat) :=
  match coll with
  | .ref a => .ok (st ++ [cloneNode (nodeAt st a)], st.length)
  | _ => .error .typeError

/-- Termination measure for `baseFreeze`: how many heap addresses are not
yet on the ancestor list. -/
def remCount (n : Nat) (prev : List Nat) : Nat :=
  (Finset.range n \ prev.toFinset).card

theorem remCount_cons_lt {n a : Nat} {prev : List Nat} (hlen : a < n) (ha : a ∉ prev) :
    remCount n (a :: prev) < remCount n prev := by
  classical
  have hmem : a ∈ Finset.range n \ prev.toFinset := by
    simp [Finset.mem_sdiff, Finset.mem_range, hlen, ha]
  have hsub : Finset.range n \ (a :: prev).toFinset ⊆ Finset.range n \ prev.toFinset := by
    apply Finset.sdiff_subset_sdiff (le_refl _)
    rw [List.toFinset_cons]
    exact Finset.subset_insert _ _
  have hnot : a ∉ Finset.range n \ (a :: prev).toFinset := by
    simp [List.toFinset_cons]
  exact Finset.card_lt_card ((Finset.ssubset_iff_of_subset hsub).2 ⟨a, hmem, hnot⟩)

mutual
/-- `baseFreeze` (src/icepick.js line 53) at a reference: throw when the
node is already its own ancestor, otherwise mark the address frozen and
recurse into its container-valued properties with the address pushed on
the ancestor list.  The heap itself never changes, only the frozen set. -/
def baseFreezeAux (st : Store) (a : Nat) (prev : List Nat) (fz : List Nat) :
    Except Err (List Nat) :=
  if a ∈ prev then .error .cycleError
  else if _h : a < st.length then
    freezeChildren st ((nodeAt st a).vals) (a :: prev) (a :: fz)
  else .ok (a :: fz)
termination_by (remCount st.length prev, 0)
decreasing_by
  exact Prod.Lex.left _ _ (remCount_cons_lt _h (by assumption))

/-- The `Object.keys(coll).forEach` loop of `baseFreeze`: recurse into the
property values that are containers, threading the frozen set and
stopping at the first error. -/
def freezeChildren (st : Store) (vs : List JSVal) (prev : List Nat) (fz : List Nat) :
    Except Err (List Nat) :=
  match vs with
  | [] => .ok fz
  | .ref b :: rest =>
    match baseFreezeAux st b prev fz with
    | .ok fz1 => freezeChildren st rest prev fz1
    | .error e => .error e
  | _ :: rest => freezeChildren st rest prev fz
termination_by (remCount st.length prev, vs.length + 1)
decreasing_by
  all_goals first
    | exact Prod.Lex.right _ (by omega)
    | exact Prod.Lex.right _ (by simp)
end

/-- `freeze` (src/icepick.js line 76): `baseFreeze(coll, [])`.  Under ES5,
`Object.freeze` of a primitive throws a TypeError. -/
def freeze (st : Store) (fz : List Nat) (coll : JSVal) :
    Except Err (List Nat × JSVal) :=
  match coll with
  | .ref a =>
    match baseFreezeAux st a [] fz with
    | .ok fz1 => .ok (fz1, coll)
    | .error e => .error e
  | _ => .error .typeError

/-- Lines 90-92 of `assoc`: `if (weCareAbout(value) && !Object.isFrozen(value))
value = baseFreeze(value, [])`.  The value itself keeps its identity;
only the frozen set changes, so this returns the updated frozen set. -/
def freezeValue (st1 : Store) (fz : List Nat) (v : JSVal) : Except Err (List Nat) :=
  match v with
  | .ref b => if b ∈ fz then .ok fz else baseFreezeAux st1 b [] fz
  | _ => .ok fz

/-- `assoc` (src/icepick.js line 87): clone the container, deep-freeze the
new value when it is a container that is not already frozen, write the key
on the clone, freeze the clone and return it. -/
def assoc (st : Store) (fz : List Nat) (coll : JSVal) (k : Key) (v : JSVal) :
    Except Err (Store × List Nat × JSVal) :=
  match clone st coll with
  | .error e => .error e
  | .ok (st1, a) =>
    match freezeValue st1 fz v with
    | .error e => .error e
    | .ok fz1 => .ok (st1.set a ((nodeAt st1 a).set k v), a :: fz1, .ref a)

/-- `del` (src/icepick.js line 105): clone, delete the key on the clone,
freeze the clone and return it. -/
def del (st : Store) (fz : List Nat) (obj : JSVal) (k : Key) :
    Except Err (Store × List Nat × JSVal) :=
  match clone st obj with
  | .error e => .error e
  | .ok (st1, a) => .ok (st1.set a ((nodeAt st1 a).del k), a :: fz, .ref a)

/-- `assocIn` (src/icepick.js line 120).  A one-key path is a plain
`assoc`; otherwise read `coll[path[0]]`, recurse on the rest of the path,
and `assoc` the result at the first key.  The reads and the recursion run
before the outer `assoc`, in source evaluation order.  An empty path is a
caller error: in JS the recursion indexes `coll[undefined]` forever until
it throws a TypeError on an acyclic hierarchy. -/
def assocIn (st : Store) (fz : List Nat) (coll : JSVal) :
    List Key → JSVal → Except Err (Store × List Nat × JSVal)
  | [], _ => .error .typeError
  | [k], v => assoc st fz coll k v
  | k :: r :: rest, v =>
    match getStep st coll k with
    | .error e => .error e
    | .ok w =>
      match assocIn st fz w (r :: rest) v with
      | .error e => .error e
      | .ok (st1, fz1, inner) => assoc st1 fz1 coll k inner

/-- `updateIn` (src/icepick.js line 154): read the existing value with
`baseGet`, apply the callback once, and `assocIn` the result. -/
def updateIn (st : Store) (fz : List Nat) (coll : JSVal) (path : List Key)
    (callback : JSVal → JSVal) : Except Err (Store × List Nat × JSVal) :=
  match baseGet st coll path with
  | .error e => .error e
  | .ok existingVal => assocIn st fz coll path (callback existingVal)

instance {ε α : Type} [DecidableEq ε] [DecidableEq α] : DecidableEq (Except ε α) :=
  fun x y =>
  match x, y with
  | .ok a, .ok b =>
    if h : a = b then .isTrue (by rw [h]) else .isFalse (by simp [h])
  | .ok _, .error _ => .isFalse (by simp)
  | .error _, .ok _ => .isFalse (by simp)
  | .error e, .error f =>
    if h : e = f then .isTrue (by rw [h]) else .isFalse (by simp [h])

/-! ### Store lemmas -/

theorem nodeAt_append {st : Store} {b : Nat} (t : Store) (h : b < st.length) :
    nodeAt (st ++ t) b = nodeAt st b := by
  unfold nodeAt
  rw [List.getD_append _ _ _ _ h]

theorem nodeAt_append_len (st : Store) (x : Node) (t : Store) :
    nodeAt (st ++ x :: t) st.length = x := by
  unfold nodeAt
  rw [List.getD_eq_getElem?_getD, List.getElem?_append_right (Nat.le_refl _)]
  simp

theorem set_append_len (st : Store) (x y : Node) :
    (st ++ [x]).set st.length y = st ++ [y] := by
  induction st with
  | nil => rfl
  | cons z rest ih => simp [List.set, ih]

/-- `st'` is `st` extended with freshly allocated nodes: old addresses are
untouched. -/
def Ext (st st' : Store) : Prop := ∃ t, st' = st ++ t

theorem Ext.refl (st : Store) : Ext st st := ⟨[], by simp⟩

theorem Ext.trans {s1 s2 s3 : Store} (h1 : Ext s1 s2) (h2 : Ext s2 s3) : Ext s1 s3 := by
  obtain ⟨t1, rfl⟩ := h1
  obtain ⟨t2, rfl⟩ := h2
  exact ⟨t1 ++ t2, by simp⟩

theorem Ext.nodeAt {st st' : Store} (h : Ext st st') {b : Nat} (hb : b < st.length) :
    nodeAt st' b = nodeAt st b := by
  obtain ⟨t, rfl⟩ := h
  exact nodeAt_append t hb

theorem Ext.len_le {st st' : Store} (h : Ext st st') : st.length ≤ st'.length := by
  obtain ⟨t, rfl⟩ := h
  simp

/-! ### Node lemmas -/

theorem arrGet_map_clone (es : List (Option JSVal)) (n : Nat) :
    arrGet (es.map (fun o => some (o.getD .undef))) n = arrGet es n := by
  induction es generalizing n with
  | nil => rfl
  | cons x rest ih =>
    cases n with
    | zero => simp [arrGet, optGet]
    | succ m => simpa [arrGet, optGet] using ih m

theorem cloneNode_get (nd : Node) (k : Key) : (cloneNode nd).get k = nd.get k := by
  cases nd with
  | obj fs => rfl
  | arr es =>
    simp only [cloneNode, Node.get]
    cases keyIdx k with
    | none => rfl
    | some n => exact arrGet_map_clone es n

theorem getField_setField_same (fs : List (String × JSVal)) (s : String) (v : JSVal) :
    getField (setField fs s v) s = v := by
  induction fs with
  | nil => simp [setField, getField]
  | cons p rest ih =>
    by_cases h : p.1 = s
    · cases p; simp_all [setField, getField]
    · cases p; simp_all [setField, getField]

theorem getField_setField_ne (fs : List (String × JSVal)) {s s' : String}
    (h : s' ≠ s) (v : JSVal) : getField (setField fs s v) s' = getField fs s' := by
  have hs : s ≠ s' := Ne.symm h
  induction fs with
  | nil => simp [setField, getField, hs]
  | cons p rest ih =>
    cases p with
    | mk t w =>
      by_cases ht : t = s
      · subst ht
        simp [setField, getField, hs]
      · simp [setField, getField, ht, ih]

theorem arrGet_arrSet_same (es : List (Option JSVal)) (n : Nat) (v : JSVal) :
    arrGet (arrSet es n v) n = v := by
  induction es generalizing n with
  | nil =>
    induction n with
    | zero => rfl
    | succ m ihm => simpa [arrSet, arrGet, optGet] using ihm
  | cons x rest ih =>
    cases n with
    | zero => rfl
    | succ m => simpa [arrSet, arrGet, optGet] using ih m

theorem arrGet_arrSet_ne (es : List (Option JSVal)) {m n : Nat} (h : m ≠ n) (v : JSVal) :
    arrGet (arrSet es n v) m = arrGet es m := by
  induction es generalizing m n with
  | nil =>
    induction n generalizing m with
    | zero => cases m with
      | zero => exact absurd rfl h
      | succ m' => rfl
    | succ n' ihn =>
      cases m with
      | zero => rfl
      | succ m' => simpa [arrSet, arrGet, optGet] using ihn (fun hh => h (by rw [hh]))
  | cons x rest ih =>
    cases n with
    | zero => cases m with
      | zero => exact absurd rfl h
      | succ m' => rfl
    | succ n' =>
      cases m with
      | zero => rfl
      | succ m' => simpa [arrSet, arrGet, optGet] using ih (fun hh => h (by rw [hh]))

theorem arrDel_length (es : List (Option JSVal)) (n : Nat) :
    (arrDel es n).length = es.length := by
  induction es generalizing n with
  | nil => rfl
  | cons x rest ih =>
    cases n with
    | zero => rfl
    | succ m => simpa [arrDel] using ih m

theorem optGet_arrDel_self (es : List (Option JSVal)) {n : Nat} (h : n < es.length) :
    optGet (arrDel es n) n = none := by
  induction es generalizing n with
  | nil => simp at h
  | cons x rest ih =>
    cases n with
    | zero => rfl
    | succ m => simpa [arrDel, optGet] using ih (by simpa using h)

theorem arrGet_arrDel_ne (es : List (Option JSVal)) {m n : Nat} (h : m ≠ n) :
    arrGet (arrDel es n) m = arrGet es m := by
  induction es generalizing m n with
  | nil => rfl
  | cons x rest ih =>
    cases n with
    | zero => cases m with
      | zero => exact absurd rfl h
      | succ m' => rfl
    | succ n' =>
      cases m with
      | zero => rfl
      | succ m' => simpa [arrDel, arrGet, optGet] using ih (fun hh => h (by rw [hh]))

/-- The node kinds a key can be written to faithfully inside the modeled
state space: any key on an object, canonical index keys on an array. -/
def kindFitN : Node → Key → Bool
  | .obj _, _ => true
  | .arr _, k => (keyIdx k).isSome

theorem kindFitN_cloneNode (nd : Node) (k : Key) :
    kindFitN (cloneNode nd) k = kindFitN nd k := by
  cases nd <;> rfl

theorem Node.set_get_same {nd : Node} {k : Key} (hfit : kindFitN nd k = true)
    (v : JSVal) : (nd.set k v).get k = v := by
  cases nd with
  | obj fs => simp [Node.set, Node.get, getField_setField_same]
  | arr es =>
    simp only [kindFitN, Option.isSome_iff_exists] at hfit
    obtain ⟨n, hn⟩ := hfit
    simp [Node.set, Node.get, hn, arrGet_arrSet_same]

theorem Node.set_get_ne {nd : Node} {k k' : Key} (h : keyStr k' ≠ keyStr k)
    (v : JSVal) : (nd.set k v).get k' = nd.get k' := by
  cases nd with
  | obj fs => simp [Node.set, Node.get, getField_setField_ne _ h]
  | arr es =>
    cases hk : keyIdx k with
    | none => simp [Node.set, hk]
    | some n =>
      cases hk' : keyIdx k' with
      | none => simp [Node.set, Node.get, hk, hk']
      | some m =>
        have hmn : m ≠ n := by
          intro hmn
          subst hmn
          exact h ((keyIdx_some_keyStr hk').trans (keyIdx_some_keyStr hk).symm)
        simp [Node.set, Node.get, hk, hk', arrGet_arrSet_ne _ hmn]

theorem optGet_mem_filterMap {es : List (Option JSVal)} {n : Nat} {w : JSVal}
    (h : optGet es n = some w) : w ∈ es.filterMap id := by
  induction es generalizing n with
  | nil => simp [optGet] at h
  | cons x rest ih =>
    cases n with
    | zero =>
      simp only [optGet] at h
      subst h
      simp
    | succ m =>
      simp only [optGet] at h
      simp only [List.filterMap_cons]
      cases x with
      | none => exact ih h
      | some y => exact List.mem_cons_of_mem _ (ih h)

theorem get_mem_vals {nd : Node} {k : Key} {v : JSVal} (h : nd.get k = v) :
    v = .undef ∨ v ∈ nd.vals := by
  cases nd with
  | obj fs =>
    simp only [Node.get] at h
    induction fs with
    | nil => left; exact h.symm
    | cons p rest ih =>
      cases p with
      | mk s w =>
        simp only [getField] at h
        by_cases hs : s = keyStr k
        · right
          rw [if_pos hs] at h
          subst h
          simp [Node.vals]
        · rw [if_neg hs] at h
          rcases ih h with h1 | h1
          · left; exact h1
          · right; simpa [Node.vals] using Or.inr (by simpa [Node.vals] using h1)
  | arr es =>
    simp only [Node.get] at h
    cases hk : keyIdx k with
    | none => rw [hk] at h; left; exact h.symm
    | some n =>
      rw [hk] at h
      cases ho : optGet es n with
      | none => left; rw [← h]; simp [arrGet, ho]
      | some w =>
        right
        have : v = w := by rw [← h]; simp [arrGet, ho]
        subst this
        simpa [Node.vals] using optGet_mem_filterMap ho

/-! ### Well-formed stores: no dangling references (as in a real JS heap) -/

/-- All references inside a value point below `n`. -/
def valRefsB (n : Nat) : JSVal → Bool
  | .ref b => decide (b < n)
  | _ => true

/-- All property values of a node have their references below `n`. -/
def nodeWfB (n : Nat) (nd : Node) : Bool := nd.vals.all (valRefsB n)

/-- Every node's references point into the store. -/
def storeWfB (st : Store) : Bool := st.all (nodeWfB st.length)

theorem nodeWfB_nodeAt {st : Store} (hwf : storeWfB st = true) {b : Nat}
    (hb : b < st.length) : nodeWfB st.length (nodeAt st b) = true := by
  have hmem : nodeAt st b ∈ st := by
    unfold nodeAt
    rw [List.getD_eq_getElem _ _ hb]
    exact List.getElem_mem _
  exact (List.all_eq_true.1 hwf) _ hmem

theorem get_ref_lt {st : Store} (hwf : storeWfB st = true) {a b : Nat} {k : Key}
    (ha : a < st.length) (h : (nodeAt st a).get k = .ref b) : b < st.length := by
  have hnd := nodeWfB_nodeAt hwf ha
  rcases get_mem_vals h with h1 | h1
  · exact absurd h1 (by simp)
  · have := (List.all_eq_true.1 hnd) _ h1
    simpa [valRefsB] using this

/-! ### Decomposition of the update operations -/

theorem freezeValue_prim {st1 : Store} {fz : List Nat} {v : JSVal}
    (h : isPrim v = true) : freezeValue st1 fz v = .ok fz := by
  cases v <;> first | rfl | simp [isPrim] at h

theorem assoc_ref_eq (st : Store) (fz : List Nat) (a : Nat) (k : Key) (v : JSVal) :
    assoc st fz (.ref a) k v =
      match freezeValue (st ++ [cloneNode (nodeAt st a)]) fz v with
      | .error e => .error e
      | .ok fz1 => .ok (st ++ [(cloneNode (nodeAt st a)).set k v],
                        st.length :: fz1, .ref st.length) := by
  simp only [assoc, clone]
  rw [nodeAt_append_len st (cloneNode (nodeAt st a)) [], set_append_len]

theorem assoc_ok {st st' : Store} {fz fz' : List Nat} {coll r' : JSVal} {k : Key}
    {v : JSVal} (h : assoc st fz coll k v = .ok (st', fz', r')) :
    ∃ a fz1, coll = .ref a ∧
      freezeValue (st ++ [cloneNode (nodeAt st a)]) fz v = .ok fz1 ∧
      st' = st ++ [(cloneNode (nodeAt st a)).set k v] ∧
      fz' = st.length :: fz1 ∧ r' = .ref st.length := by
  cases coll with
  | ref a =>
    rw [assoc_ref_eq] at h
    cases hfv : freezeValue (st ++ [cloneNode (nodeAt st a)]) fz v with
    | error e => rw [hfv] at h; exact Except.noConfusion h
    | ok fz1 =>
      rw [hfv] at h
      simp only [Except.ok.injEq, Prod.mk.injEq] at h
      exact ⟨a, fz1, rfl, hfv, h.1.symm, h.2.1.symm, h.2.2.symm⟩
  | undef => exact Except.noConfusion h
  | null => exact Except.noConfusion h
  | num n => exact Except.noConfusion h
  | bool b => exact Except.noConfusion h

theorem del_ref_eq (st : Store) (fz : List Nat) (a : Nat) (k : Key) :
    del st fz (.ref a) k =
      .ok (st ++ [(cloneNode (nodeAt st a)).del k], st.length :: fz, .ref st.length) := by
  simp only [del, clone]
  rw [nodeAt_append_len st (cloneNode (nodeAt st a)) [], set_append_len]

theorem del_ok {st st' : Store} {fz fz' : List Nat} {obj r' : JSVal} {k : Key}
    (h : del st fz obj k = .ok (st', fz', r')) :
    ∃ a, obj = .ref a ∧
      st' = st ++ [(cloneNode (nodeAt st a)).del k] ∧
      fz' = st.length :: fz ∧ r' = .ref st.length := by
  cases obj with
  | ref a =>
    rw [del_ref_eq] at h
    simp only [Except.ok.injEq, Prod.mk.injEq] at h
    exact ⟨a, rfl, h.1.symm, h.2.1.symm, h.2.2.symm⟩
  | undef => exact Except.noConfusion h
  | null => exact Except.noConfusion h
  | num n => exact Except.noConfusion h
  | bool b => exact Except.noConfusion h

theorem assoc_ext {st st' : Store} {fz fz' : List Nat} {coll r' : JSVal} {k : Key}
    {v : JSVal} (h : assoc st fz coll k v = .ok (st', fz', r')) : Ext st st' := by
  obtain ⟨a, fz1, _, _, rfl, _, _⟩ := assoc_ok h
  exact ⟨_, rfl⟩

theorem assocIn_ok_core {st : Store} {fz : List Nat} :
    ∀ {path : List Key} {coll : JSVal} {v : JSVal} {st' : Store} {fz' : List Nat}
    {r' : JSVal}, assocIn st fz coll path v = .ok (st', fz', r') →
    Ext st st' ∧ r' = .ref (st'.length - 1) := by
  intro path
  induction path with
  | nil => intro coll v st' fz' r' h; exact Except.noConfusion h
  | cons k tail ih =>
    intro coll v st' fz' r' h
    cases tail with
    | nil =>
      obtain ⟨a, fz1, _, _, rfl, _, hr⟩ := assoc_ok h
      refine ⟨⟨_, rfl⟩, ?_⟩
      rw [hr]
      simp
    | cons r rest =>
      cases hg : getStep st coll k with
      | error e =>
        simp only [assocIn, hg] at h
        exact Except.noConfusion h
      | ok w =>
        cases hin : assocIn st fz w (r :: rest) v with
        | error e =>
          simp only [assocIn, hg, hin] at h
          exact Except.noConfusion h
        | ok res =>
          obtain ⟨st1, fz1, inner⟩ := res
          simp only [assocIn, hg, hin] at h
          obtain ⟨a, fz2, _, _, rfl, _, hr⟩ := assoc_ok h
          refine ⟨((ih hin).1).trans ⟨_, rfl⟩, ?_⟩
          rw [hr]
          simp

theorem assocIn_ext {st st' : Store} {fz fz' : List Nat} {coll v r' : JSVal}
    {path : List Key} (h : assocIn st fz coll path v = .ok (st', fz', r')) :
    Ext st st' := (assocIn_ok_core h).1

theorem updateIn_ext {st st' : Store} {fz fz' : List Nat} {coll r' : JSVal}
    {path : List Key} {f : JSVal → JSVal}
    (h : updateIn st fz coll path f = .ok (st', fz', r')) : Ext st st' := by
  unfold updateIn at h
  cases hb : baseGet st coll path with
  | error e => rw [hb] at h; exact Except.noConfusion h
  | ok ev => rw [hb] at h; exact assocIn_ext h

/-! ### baseGet lemmas -/

theorem baseGet_cons (st : Store) (coll : JSVal) (k : Key) (rest : List Key) :
    baseGet st coll (k :: rest) =
      match getStep st coll k with
      | .ok w => baseGet st w rest
      | .error e => .error e := rfl

theorem baseGet_append (st : Store) (p q : List Key) :
    ∀ coll, baseGet st coll (p ++ q) =
      match baseGet st coll p with
      | .ok v => baseGet st v q
      | .error e => .error e := by
  induction p with
  | nil => intro coll; rfl
  | cons k rest ih =>
    intro coll
    rw [List.cons_append, baseGet_cons, baseGet_cons]
    cases hg : getStep st coll k with
    | ok w => simp only; exact ih w
    | error e => simp only

/-- Reading a key that does not exist on a node yields `undefined`. -/
theorem get_of_not_hasKey {nd : Node} {k : Key} (h : nd.hasKey k = false) :
    nd.get k = .undef := by
  cases nd with
  | obj fs =>
    simp only [Node.hasKey] at h
    simp only [Node.get]
    induction fs with
    | nil => rfl
    | cons p rest ih =>
      obtain ⟨s, w⟩ := p
      rw [List.any_cons, Bool.or_eq_false_iff] at h
      have hs : s ≠ keyStr k := by
        have := h.1
        simpa using this
      simp only [getField, if_neg hs]
      exact ih h.2
  | arr es =>
    simp only [Node.hasKey] at h
    simp only [Node.get]
    cases hk : keyIdx k with
    | none => rfl
    | some n =>
      rw [hk] at h
      have h' : (optGet es n).isSome = false := h
      have hn : optGet es n = none := Option.not_isSome_iff_eq_none.1 (by simp [h'])
      simp [arrGet, hn]

theorem baseGet_error_typeError {st : Store} :
    ∀ {path : List Key} {coll : JSVal} {e : Err},
    baseGet st coll path = .error e → e = .typeError := by
  intro path
  induction path with
  | nil => intro coll e h; exact Except.noConfusion h
  | cons k rest ih =>
    intro coll e h
    rw [baseGet_cons] at h
    cases hg : getStep st coll k with
    | error e' =>
      rw [hg] at h
      cases coll with
      | undef =>
        simp only [getStep, Except.error.injEq] at hg
        injection h with h'
        rw [← h', ← hg]
      | null =>
        simp only [getStep, Except.error.injEq] at hg
        injection h with h'
        rw [← h', ← hg]
      | num n => exact Except.noConfusion hg
      | bool b => exact Except.noConfusion hg
      | ref a => exact Except.noConfusion hg
    | ok w => rw [hg] at h; exact ih h

/-! ### assocIn on primitives -/

theorem assocIn_prim_error {st : Store} {fz : List Nat} :
    ∀ {path : List Key} {coll : JSVal}, isPrim coll = true → path ≠ [] →
    ∀ v, assocIn st fz coll path v = .error .typeError := by
  intro path
  induction path with
  | nil => intro coll _ hne _; exact absurd rfl hne
  | cons k tail ih =>
    intro coll hp _ v
    cases tail with
    | nil =>
      cases coll <;> first
        | rfl
        | simp [isPrim] at hp
    | cons r rest =>
      cases coll with
      | undef => rfl
      | null => rfl
      | num n =>
        have hu := @ih JSVal.undef rfl (by simp) v
        simp [assocIn, getStep, hu]
      | bool b =>
        have hu := @ih JSVal.undef rfl (by simp) v
        simp [assocIn, getStep, hu]
      | ref a => simp [isPrim] at hp

theorem assocIn_error_of_prim_inter {st : Store} {fz : List Nat} :
    ∀ {path : List Key} {coll w : JSVal} {j : Nat}, 1 ≤ j → j < path.length →
    baseGet st coll (path.take j) = .ok w → isPrim w = true →
    ∀ v, assocIn st fz coll path v = .error .typeError := by
  intro path
  induction path with
  | nil =>
    intro coll w j _ h2 _ _ _
    exact absurd h2 (by simp)
  | cons k tail ih =>
    intro coll w j h1 h2 hget hp v
    obtain ⟨j', rfl⟩ : ∃ j', j = j' + 1 := ⟨j - 1, by omega⟩
    cases tail with
    | nil =>
      simp at h2
    | cons r rest =>
      rw [List.take_succ_cons, baseGet_cons] at hget
      cases hg : getStep st coll k with
      | error e =>
        rw [hg] at hget
        exact Except.noConfusion hget
      | ok w1 =>
        rw [hg] at hget
        cases j' with
        | zero =>
          simp only [List.take_zero, baseGet] at hget
          injection hget with hw
          subst hw
          have hin : assocIn st fz w1 (r :: rest) v = .error .typeError :=
            assocIn_prim_error hp (by simp) v
          simp [assocIn, hg, hin]
        | succ j'' =>
          have h2' : j'' + 1 < (r :: rest).length := by
            simpa using Nat.lt_of_succ_lt_succ h2
          have hin : assocIn st fz w1 (r :: rest) v = .error .typeError :=
            ih (by omega) h2' hget hp v
          simp [assocIn, hg, hin]

theorem updateIn_error_of_prim_inter {st : Store} {fz : List Nat} {path : List Key}
    {coll w : JSVal} {j : Nat} (h1 : 1 ≤ j) (h2 : j < path.length)
    (hget : baseGet st coll (path.take j) = .ok w) (hp : isPrim w = true)
    (f : JSVal → JSVal) : updateIn st fz coll path f = .error .typeError := by
  unfold updateIn
  cases hb : baseGet st coll path with
  | error e =>
    simp only [hb]
    rw [baseGet_error_typeError hb]
  | ok ev =>
    simp only [hb]
    exact assocIn_error_of_prim_inter h1 h2 hget hp (f ev)

/-! ### The claims -/

/-- C10: for every container `c`, `getIn(c, path)` with a `null`/`undefined`
path argument returns `c` itself by identity, exactly as `getIn` with an
empty path does, because `baseGet` replaces a falsy path by `[]`. -/
theorem c10_getIn_null_path (st : Store) (coll : JSVal) :
    getIn st coll none = .ok coll ∧ getIn st coll none = getIn st coll (some []) :=
  ⟨rfl, rfl⟩

/-- C1 is false as stated: `getIn` can raise.  On the store holding the
single object `{a: 1}`, the lookup `getIn({a: 1}, ["b", "c"])` reads key
`"b"` (missing, so `undefined`) and then indexes `undefined["c"]`, which
throws a TypeError instead of returning the absent sentinel. -/
theorem c1_counterexample :
    getIn [Node.obj [("a", JSVal.num 1)]] (.ref 0) (some [Key.str "b", Key.str "c"])
      = .error .typeError := by
  rfl

theorem baseGet_total_of_safe {st : Store} :
    ∀ {path : List Key} {coll : JSVal},
    (∀ p, p <+: path → p ≠ path → ∀ v, baseGet st coll p = .ok v →
      v ≠ .undef ∧ v ≠ .null) →
    ∃ w, baseGet st coll path = .ok w := by
  intro path
  induction path with
  | nil => intro coll _; exact ⟨coll, rfl⟩
  | cons k rest ih =>
    intro coll hsafe
    have h0 := hsafe [] ⟨k :: rest, rfl⟩ (by simp) coll rfl
    cases hg : getStep st coll k with
    | error e =>
      cases coll with
      | undef => exact absurd rfl h0.1
      | null => exact absurd rfl h0.2
      | num n => exact Except.noConfusion hg
      | bool b => exact Except.noConfusion hg
      | ref a => exact Except.noConfusion hg
    | ok w =>
      have hrest : ∀ p, p <+: rest → p ≠ rest → ∀ v, baseGet st w p = .ok v →
          v ≠ .undef ∧ v ≠ .null := by
        intro p hp hne v hv
        refine hsafe (k :: p) ?_ (by simpa using hne) v ?_
        · obtain ⟨t, ht⟩ := hp
          exact ⟨t, by rw [List.cons_append, ht]⟩
        · rw [baseGet_cons, hg]
          exact hv
      obtain ⟨w', hw'⟩ := ih hrest
      refine ⟨w', ?_⟩
      rw [baseGet_cons, hg]
      exact hw'

theorem baseGet_miss_undef {st : Store} {p : List Key} {k : Key} {coll v : JSVal}
    (hp : baseGet st coll p = .ok v)
    (hmiss : (∃ a, v = .ref a ∧ (nodeAt st a).hasKey k = false)
      ∨ (∃ n, v = .num n) ∨ (∃ b, v = .bool b)) :
    baseGet st coll (p ++ [k]) = .ok (JSVal.undef) := by
  rw [baseGet_append st p [k] coll, hp]
  show baseGet st v [k] = .ok (JSVal.undef)
  rcases hmiss with ⟨a, rfl, hk⟩ | ⟨n, rfl⟩ | ⟨b, rfl⟩
  · rw [baseGet_cons, getStep, get_of_not_hasKey hk]
    rfl
  · rfl
  · rfl

theorem baseGet_undef_null_raises {st : Store} {p : List Key} (k : Key)
    (rest : List Key) {coll v : JSVal} (hp : baseGet st coll p = .ok v)
    (hv : v = .undef ∨ v = .null) :
    baseGet st coll (p ++ k :: rest) = .error .typeError := by
  rw [baseGet_append st p (k :: rest) coll, hp]
  show baseGet st v (k :: rest) = .error .typeError
  rcases hv with rfl | rfl <;> rfl

/-- C1 (amended): `getIn` returns a value and never raises provided no
strict intermediate step of the lookup produces `undefined` or `null`
(first conjunct); indexing a key that does not exist on a container, or
indexing a number/boolean non-container, at the final step returns
exactly the absent sentinel `undefined` (second conjunct); but when an
intermediate step yields `undefined` or `null` while more path segments
remain, `getIn` raises a TypeError instead of returning the sentinel
(third conjunct). -/
theorem c1_amended_getIn_total (st : Store) :
    (∀ (path : List Key) (coll : JSVal),
      (∀ p, p <+: path → p ≠ path → ∀ v, baseGet st coll p = .ok v →
        v ≠ .undef ∧ v ≠ .null) →
      ∃ w, baseGet st coll path = .ok w)
    ∧ (∀ (p : List Key) (k : Key) (coll v : JSVal),
      baseGet st coll p = .ok v →
      ((∃ a, v = .ref a ∧ (nodeAt st a).hasKey k = false)
        ∨ (∃ n, v = .num n) ∨ (∃ b, v = .bool b)) →
      baseGet st coll (p ++ [k]) = .ok (JSVal.undef))
    ∧ (∀ (p : List Key) (k : Key) (rest : List Key) (coll v : JSVal),
      baseGet st coll p = .ok v → (v = .undef ∨ v = .null) →
      baseGet st coll (p ++ k :: rest) = .error .typeError) :=
  ⟨fun _ _ hsafe => baseGet_total_of_safe hsafe,
   fun _ _ _ _ hp hmiss => baseGet_miss_undef hp hmiss,
   fun _ k rest _ _ hp hv => baseGet_undef_null_raises k rest hp hv⟩

/-- Witness for the amended C1 on the store holding `{a: 1}`: looking up
the missing key `"b"` alone succeeds and returns exactly `undefined`, and
continuing past that `undefined` intermediate with one more key raises
the TypeError. -/
theorem c1_witness :
    (∃ w, baseGet [Node.obj [("a", JSVal.num 1)]] (.ref 0) [Key.str "b"] = .ok w)
    ∧ baseGet [Node.obj [("a", JSVal.num 1)]] (.ref 0) ([] ++ [Key.str "b"])
        = .ok (JSVal.undef)
    ∧ baseGet [Node.obj [("a", JSVal.num 1)]] (.ref 0)
        ([Key.str "b"] ++ [Key.str "c"]) = .error .typeError := by
  have h := c1_amended_getIn_total [Node.obj [("a", JSVal.num 1)]]
  refine ⟨h.1 [Key.str "b"] (.ref 0) ?_, ?_, ?_⟩
  · intro p hp hne v hv
    have hp0 : p = [] := by
      obtain ⟨t, ht⟩ := hp
      cases p with
      | nil => rfl
      | cons x xs =>
        simp only [List.cons_append, List.cons.injEq] at ht
        obtain ⟨rfl, ht2⟩ := ht
        obtain ⟨rfl, rfl⟩ := List.append_eq_nil.mp ht2
        exact absurd rfl hne
    subst hp0
    have hv' : v = .ref 0 := by
      injection hv with h'
      exact h'.symm
    subst hv'
    exact ⟨by simp, by simp⟩
  · exact h.2.1 [] (Key.str "b") (.ref 0) (.ref 0) rfl (Or.inl ⟨0, rfl, by decide⟩)
  · exact h.2.2 [Key.str "b"] (Key.str "c") [] (.ref 0) (JSVal.undef) (by rfl)
      (Or.inl rfl)

/-- C3: when an intermediate value that must be descended into is a
primitive while more path segments remain, `assocIn` (and `updateIn`
through it) raises an error surfaced to the caller (a TypeError: reading a
property of `undefined`/`null`, or ES5 `Object.keys` applied to a
primitive when the shallow clone runs) rather than returning a result. -/
theorem c3_primitive_intermediate_fails (st : Store) (fz : List Nat)
    (coll w v : JSVal) (path : List Key) (f : JSVal → JSVal) (j : Nat)
    (h1 : 1 ≤ j) (h2 : j < path.length)
    (hget : baseGet st coll (path.take j) = .ok w) (hp : isPrim w = true) :
    assocIn st fz coll path v = .error .typeError ∧
    updateIn st fz coll path f = .error .typeError :=
  ⟨assocIn_error_of_prim_inter h1 h2 hget hp v,
   updateIn_error_of_prim_inter h1 h2 hget hp f⟩

/-- Witness for C3: on `{a: 5}` with path `["a", "b"]`, the intermediate
value `5` is a primitive, and both `assocIn` and `updateIn` raise. -/
theorem c3_witness :
    baseGet [Node.obj [("a", JSVal.num 5)]] (.ref 0)
        ([Key.str "a", Key.str "b"].take 1) = .ok (.num 5)
    ∧ assocIn [Node.obj [("a", JSVal.num 5)]] [] (.ref 0)
        [Key.str "a", Key.str "b"] (.num 7) = .error .typeError
    ∧ updateIn [Node.obj [("a", JSVal.num 5)]] [] (.ref 0)
        [Key.str "a", Key.str "b"] (fun x => x) = .error .typeError := by
  have h := c3_primitive_intermediate_fails [Node.obj [("a", JSVal.num 5)]] []
    (.ref 0) (.num 5) (.num 7) [Key.str "a", Key.str "b"] (fun x => x) 1
    (by decide) (by decide) (by rfl) (by decide)
  exact ⟨by rfl, h.1, h.2⟩

/-- C8: when `getIn` does not return the absent sentinel, `updateIn(c,
path, fn)` equals `assocIn(c, path, fn(getIn(c, path)))`; the source
applies the callback exactly once, to the existing value. -/
theorem c8_updateIn_composition (st : Store) (fz : List Nat) (coll : JSVal)
    (path : List Key) (fn : JSVal → JSVal) (ev : JSVal)
    (hget : baseGet st coll path = .ok ev) (habs : ev ≠ .undef) :
    updateIn st fz coll path fn = assocIn st fz coll path (fn ev) := by
  unfold updateIn
  simp only [hget]

/-- Witness for C8 on `{a: 3}` with path `["a"]` and the identity callback. -/
theorem c8_witness :
    baseGet [Node.obj [("a", JSVal.num 3)]] (.ref 0) [Key.str "a"] = .ok (.num 3)
    ∧ (JSVal.num 3 ≠ JSVal.undef)
    ∧ updateIn [Node.obj [("a", JSVal.num 3)]] [] (.ref 0) [Key.str "a"] (fun x => x)
        = assocIn [Node.obj [("a", JSVal.num 3)]] [] (.ref 0) [Key.str "a"]
            ((fun x => x) (JSVal.num 3)) :=
  ⟨by rfl, by simp,
   c8_updateIn_composition [Node.obj [("a", JSVal.num 3)]] [] (.ref 0)
     [Key.str "a"] (fun x => x) (.num 3) (by rfl) (by simp)⟩

/-- C9: `del` on an array with an in-bounds index returns a frozen array of
the same length in which the deleted index is a hole (the key no longer
exists) and every other index holds a value identity-equal to the
corresponding value of the input; elements are not shifted down. -/
theorem c9_del_array_hole (st : Store) (fz : List Nat) (a n : Nat)
    (es : List (Option JSVal)) (st' : Store) (fz' : List Nat) (r' : JSVal)
    (hnode : nodeAt st a = .arr es) (hn : n < es.length)
    (h : del st fz (.ref a) (.idx n) = .ok (st', fz', r')) :
    r' = .ref st.length ∧ st.length ∈ fz' ∧
    ∃ es', nodeAt st' st.length = .arr es' ∧
      es'.length = es.length ∧
      optGet es' n = none ∧
      ∀ m, m ≠ n → arrGet es' m = arrGet es m := by
  rw [del_ref_eq, hnode] at h
  simp only [Except.ok.injEq, Prod.mk.injEq] at h
  obtain ⟨hst, hfz, hr⟩ := h
  subst hst hfz hr
  refine ⟨rfl, by simp, ?_⟩
  refine ⟨arrDel (es.map (fun o => some (o.getD .undef))) n, ?_, ?_, ?_, ?_⟩
  · rw [show (cloneNode (Node.arr es)).del (.idx n)
        = Node.arr (arrDel (es.map (fun o => some (o.getD .undef))) n) from rfl]
    exact nodeAt_append_len st _ []
  · rw [arrDel_length, List.length_map]
  · exact optGet_arrDel_self _ (by simpa using hn)
  · intro m hm
    rw [arrGet_arrDel_ne _ hm, arrGet_map_clone]

/-- Witness for C9: deleting index 0 of the frozen array `[1, 2]`. -/
theorem c9_witness :
    nodeAt [Node.arr [some (JSVal.num 1), some (JSVal.num 2)]] 0
        = .arr [some (JSVal.num 1), some (JSVal.num 2)]
    ∧ (0 : Nat) < 2
    ∧ del [Node.arr [some (JSVal.num 1), some (JSVal.num 2)]] [0] (.ref 0) (.idx 0)
        = .ok ([Node.arr [some (JSVal.num 1), some (JSVal.num 2)],
                Node.arr [none, some (JSVal.num 2)]], [1, 0], .ref 1)
    ∧ ∃ es', nodeAt [Node.arr [some (JSVal.num 1), some (JSVal.num 2)],
                Node.arr [none, some (JSVal.num 2)]] 1 = .arr es' ∧
        es'.length = 2 ∧ optGet es' 0 = none ∧
        ∀ m, m ≠ 0 → arrGet es' m
          = arrGet [some (JSVal.num 1), some (JSVal.num 2)] m := by
  refine ⟨rfl, by decide, by rfl, ?_⟩
  have h := c9_del_array_hole [Node.arr [some (JSVal.num 1), some (JSVal.num 2)]]
    [0] 0 0 [some (JSVal.num 1), some (JSVal.num 2)]
    [Node.arr [some (JSVal.num 1), some (JSVal.num 2)],
     Node.arr [none, some (JSVal.num 2)]] [1, 0] (.ref 1)
    rfl (by decide) (by rfl)
  exact h.2.2

/-! ### Structural sharing and the round trip -/

/-- A key fits the node kind of the value it is applied to (any key on an
object or a primitive, a canonical index on an array): the modeled state
space for sequence nodes has integer indices only. -/
def kindFitV (st : Store) : JSVal → Key → Bool
  | .ref a, k => kindFitN (nodeAt st a) k
  | _, _ => true

/-- Every key of the path fits the node kind met at its step of the
descent. -/
def fitsB (st : Store) : JSVal → List Key → Bool
  | _, [] => true
  | v, k :: rest =>
    kindFitV st v k &&
      (match getStep st v k with
       | .ok w => fitsB st w rest
       | .error _ => true)

theorem get_ref_kindFit {nd : Node} {k : Key} {b : Nat} (h : nd.get k = .ref b) :
    kindFitN nd k = true := by
  cases nd with
  | obj fs => rfl
  | arr es =>
    cases hk : keyIdx k with
    | none => rw [Node.get, hk] at h; exact JSVal.noConfusion h
    | some n => simp [kindFitN, hk]

theorem valRefsB_ref {n a : Nat} (h : valRefsB n (.ref a) = true) : a < n := by
  simpa [valRefsB] using h

/-- If `assocIn` succeeds, the read value at the first step of a longer
path is a container reference (a primitive intermediate would make it
fail). -/
theorem assocIn_inter_ref {st : Store} {fz : List Nat} {w v : JSVal}
    {r : Key} {rest : List Key} {st1 : Store} {fz1 : List Nat} {inner : JSVal}
    (hin : assocIn st fz w (r :: rest) v = .ok (st1, fz1, inner)) :
    ∃ b, w = .ref b := by
  cases w with
  | ref b => exact ⟨b, rfl⟩
  | undef =>
    rw [@assocIn_prim_error st fz (r :: rest) JSVal.undef rfl (by simp) v] at hin
    exact Except.noConfusion hin
  | null =>
    rw [@assocIn_prim_error st fz (r :: rest) JSVal.null rfl (by simp) v] at hin
    exact Except.noConfusion hin
  | num n =>
    rw [@assocIn_prim_error st fz (r :: rest) (JSVal.num n) rfl (by simp) v] at hin
    exact Except.noConfusion hin
  | bool b =>
    rw [@assocIn_prim_error st fz (r :: rest) (JSVal.bool b) rfl (by simp) v] at hin
    exact Except.noConfusion hin

theorem fitsB_cons (st : Store) (v : JSVal) (k : Key) (rest : List Key) :
    fitsB st v (k :: rest) =
      (kindFitV st v k &&
        (match getStep st v k with
         | .ok w => fitsB st w rest
         | .error _ => true)) := rfl

/-- Round trip, strengthened for the induction: reading the written path
back from the result (in any extension of the result store, so that outer
`assoc` allocations do not disturb inner reads) yields exactly the written
value. -/
theorem assocIn_roundtrip_aux {st : Store} {fz : List Nat} :
    ∀ {path : List Key} {coll v : JSVal} {st' : Store} {fz' : List Nat} {r' : JSVal},
    storeWfB st = true → valRefsB st.length coll = true →
    fitsB st coll path = true →
    assocIn st fz coll path v = .ok (st', fz', r') →
    ∀ st2, Ext st' st2 → baseGet st2 r' path = .ok v := by
  intro path
  induction path with
  | nil =>
    intro coll v st' fz' r' _ _ _ h
    exact Except.noConfusion h
  | cons k tail ih =>
    intro coll v st' fz' r' hwf hcoll hfits h st2 hext
    cases tail with
    | nil =>
      obtain ⟨a, fz1, rfl, _, rfl, _, hr⟩ := assoc_ok h
      subst hr
      obtain ⟨t, rfl⟩ := hext
      have hfit : kindFitN (nodeAt st a) k = true := by
        have h2 := hfits
        rw [fitsB_cons, Bool.and_eq_true] at h2
        exact h2.1
      have hnd : nodeAt (st ++ [(cloneNode (nodeAt st a)).set k v] ++ t) st.length
          = (cloneNode (nodeAt st a)).set k v := by
        rw [nodeAt_append t (by simp), nodeAt_append_len st _ []]
      rw [baseGet_cons, getStep, hnd,
        Node.set_get_same (by rw [kindFitN_cloneNode]; exact hfit)]
      rfl
    | cons r rest =>
      cases hg : getStep st coll k with
      | error e =>
        simp only [assocIn, hg] at h
        exact Except.noConfusion h
      | ok w =>
        cases hin : assocIn st fz w (r :: rest) v with
        | error e =>
          simp only [assocIn, hg, hin] at h
          exact Except.noConfusion h
        | ok res =>
          obtain ⟨st1, fz1, inner⟩ := res
          simp only [assocIn, hg, hin] at h
          obtain ⟨a, fz2, hcol, _, rfl, _, hr⟩ := assoc_ok h
          subst hcol hr
          have ha : a < st.length := valRefsB_ref hcoll
          have hw : (nodeAt st a).get k = w := by
            simp only [getStep, Except.ok.injEq] at hg
            exact hg
          obtain ⟨b, rfl⟩ := assocIn_inter_ref hin
          have hb : b < st.length := get_ref_lt hwf ha hw
          have hfit : kindFitN (nodeAt st a) k = true := get_ref_kindFit hw
          have hfits2 : fitsB st (.ref b) (r :: rest) = true := by
            have h2 := hfits
            rw [fitsB_cons, hg, Bool.and_eq_true] at h2
            exact h2.2
          have hext1 : Ext st st1 := assocIn_ext hin
          have hnd1 : nodeAt st1 a = nodeAt st a := hext1.nodeAt ha
          obtain ⟨t, rfl⟩ := hext
          have hnd : nodeAt (st1 ++ [(cloneNode (nodeAt st1 a)).set k inner] ++ t)
              st1.length = (cloneNode (nodeAt st1 a)).set k inner := by
            rw [nodeAt_append t (by simp), nodeAt_append_len st1 _ []]
          rw [baseGet_cons, getStep, hnd,
            Node.set_get_same (by rw [kindFitN_cloneNode, hnd1]; exact hfit)]
          exact ih hwf (by simpa [valRefsB] using hb) hfits2 hin _
            (Ext.trans ⟨_, rfl⟩ ⟨t, rfl⟩)

/-- Structural sharing along `assocIn`, strengthened for the induction:
at every depth `i` of the update path, reading any key other than the
path's key at that depth gives the very same value (reference identity
included) in the result as in the input hierarchy. -/
theorem assocIn_sharing_aux {st : Store} {fz : List Nat} :
    ∀ {path : List Key} {coll v : JSVal} {st' : Store} {fz' : List Nat} {r' : JSVal},
    storeWfB st = true → valRefsB st.length coll = true →
    assocIn st fz coll path v = .ok (st', fz', r') →
    ∀ st2, Ext st' st2 → ∀ i (hi : i < path.length) (k : Key),
      keyStr k ≠ keyStr (path.get ⟨i, hi⟩) →
      baseGet st2 r' (path.take i ++ [k]) = baseGet st coll (path.take i ++ [k]) := by
  intro path
  induction path with
  | nil =>
    intro coll v st' fz' r' _ _ h
    exact Except.noConfusion h
  | cons k0 tail ih =>
    intro coll v st' fz' r' hwf hcoll h st2 hext i hi k hk
    cases tail with
    | nil =>
      obtain ⟨a, fz1, rfl, _, rfl, _, hr⟩ := assoc_ok h
      subst hr
      obtain ⟨t, rfl⟩ := hext
      cases i with
      | succ i' => simp at hi
      | zero =>
        have hnd : nodeAt (st ++ [(cloneNode (nodeAt st a)).set k0 v] ++ t) st.length
            = (cloneNode (nodeAt st a)).set k0 v := by
          rw [nodeAt_append t (by simp), nodeAt_append_len st _ []]
        have hk0 : keyStr k ≠ keyStr k0 := hk
        simp only [List.take_zero, List.nil_append]
        rw [baseGet_cons, baseGet_cons, getStep, getStep, hnd,
          Node.set_get_ne hk0, cloneNode_get]
        rfl
    | cons r rest =>
      cases hg : getStep st coll k0 with
      | error e =>
        simp only [assocIn, hg] at h
        exact Except.noConfusion h
      | ok w =>
        cases hin : assocIn st fz w (r :: rest) v with
        | error e =>
          simp only [assocIn, hg, hin] at h
          exact Except.noConfusion h
        | ok res =>
          obtain ⟨st1, fz1, inner⟩ := res
          simp only [assocIn, hg, hin] at h
          obtain ⟨a, fz2, hcol, _, rfl, _, hr⟩ := assoc_ok h
          subst hcol hr
          have ha : a < st.length := valRefsB_ref hcoll
          have hw : (nodeAt st a).get k0 = w := by
            simp only [getStep, Except.ok.injEq] at hg
            exact hg
          obtain ⟨b, rfl⟩ := assocIn_inter_ref hin
          have hb : b < st.length := get_ref_lt hwf ha hw
          have hext1 : Ext st st1 := assocIn_ext hin
          have hnd1 : nodeAt st1 a = nodeAt st a := hext1.nodeAt ha
          obtain ⟨t, rfl⟩ := hext
          have hnd : nodeAt (st1 ++ [(cloneNode (nodeAt st1 a)).set k0 inner] ++ t)
              st1.length = (cloneNode (nodeAt st1 a)).set k0 inner := by
            rw [nodeAt_append t (by simp), nodeAt_append_len st1 _ []]
          cases i with
          | zero =>
            simp only [List.take_zero, List.nil_append]
            have hk0 : keyStr k ≠ keyStr k0 := hk
            rw [baseGet_cons, baseGet_cons, getStep, getStep, hnd,
              Node.set_get_ne hk0, cloneNode_get, hnd1]
            rfl
          | succ i' =>
            have hi' : i' < (r :: rest).length := by simpa using Nat.lt_of_succ_lt_succ hi
            have hk' : keyStr k ≠ keyStr ((r :: rest).get ⟨i', hi'⟩) := hk
            have hstep : (k0 :: r :: rest).take (i' + 1) ++ [k]
                = k0 :: ((r :: rest).take i' ++ [k]) := by
              rw [List.take_succ_cons, List.cons_append]
            rw [hstep, baseGet_cons, baseGet_cons, getStep, getStep, hnd,
              Node.set_get_same (by rw [kindFitN_cloneNode, hnd1]; exact get_ref_kindFit hw),
              hnd1, hw]
            exact ih hwf (by simpa [valRefsB] using hb) hin _
              (Ext.trans ⟨_, rfl⟩ ⟨t, rfl⟩) i' hi' k hk'

/-- C2: structural sharing.  For a frozen container `c` and keys `k1 ≠ k2`
(as JS property keys), the result of `assoc(c, k1, v)` holds at `k2` the
very same value — reference identity included — as `c`; and for every
update through `assocIn`, at every depth `i` of the path, every key other
than the path's key at that depth reads the same value (identity-equal)
in the result hierarchy as in the input hierarchy. -/
theorem c2_structural_sharing :
    (∀ (st : Store) (fz : List Nat) (a : Nat) (k1 k2 : Key) (v : JSVal)
       (st' : Store) (fz' : List Nat) (r' : JSVal), a ∈ fz →
       keyStr k1 ≠ keyStr k2 →
       assoc st fz (.ref a) k1 v = .ok (st', fz', r') →
       ∃ a', r' = .ref a' ∧ (nodeAt st' a').get k2 = (nodeAt st a).get k2)
    ∧ (∀ (st : Store) (fz : List Nat) (path : List Key) (coll v : JSVal)
       (st' : Store) (fz' : List Nat) (r' : JSVal),
       storeWfB st = true → valRefsB st.length coll = true →
       assocIn st fz coll path v = .ok (st', fz', r') →
       ∀ i (hi : i < path.length) (k : Key),
         keyStr k ≠ keyStr (path.get ⟨i, hi⟩) →
         baseGet st' r' (path.take i ++ [k])
           = baseGet st coll (path.take i ++ [k])) := by
  constructor
  · intro st fz a k1 k2 v st' fz' r' _ hk h
    obtain ⟨a0, fz1, hcol, _, rfl, _, hr⟩ := assoc_ok h
    injection hcol with ha0
    subst ha0
    refine ⟨st.length, hr, ?_⟩
    rw [nodeAt_append_len st _ [], Node.set_get_ne (Ne.symm hk), cloneNode_get]
  · intro st fz path coll v st' fz' r' hwf hcoll h i hi k hk
    exact assocIn_sharing_aux hwf hcoll h st' (Ext.refl st') i hi k hk

/-- Witness for C2: `assoc` on the frozen `{a: 1, b: 2}` at key `a` keeps
`b` identical, and `assocIn` on `{p: {q: 1}}` along `["p", "q"]` keeps
every off-path read identical at both depths. -/
theorem c2_witness :
    ((0 : Nat) ∈ ([0] : List Nat)
     ∧ keyStr (.str "a") ≠ keyStr (.str "b")
     ∧ assoc [Node.obj [("a", JSVal.num 1), ("b", JSVal.num 2)]] [0] (.ref 0)
         (.str "a") (.num 9)
         = .ok ([Node.obj [("a", JSVal.num 1), ("b", JSVal.num 2)],
                 Node.obj [("a", JSVal.num 9), ("b", JSVal.num 2)]], [1, 0], .ref 1)
     ∧ ∃ a', (JSVal.ref 1) = .ref a'
         ∧ (nodeAt [Node.obj [("a", JSVal.num 1), ("b", JSVal.num 2)],
                    Node.obj [("a", JSVal.num 9), ("b", JSVal.num 2)]] a').get (.str "b")
           = (nodeAt [Node.obj [("a", JSVal.num 1), ("b", JSVal.num 2)]] 0).get (.str "b"))
    ∧ (storeWfB [Node.obj [("p", JSVal.ref 1)], Node.obj [("q", JSVal.num 1)]] = true
     ∧ assocIn [Node.obj [("p", JSVal.ref 1)], Node.obj [("q", JSVal.num 1)]] []
         (.ref 0) [.str "p", .str "q"] (.num 7)
         = .ok ([Node.obj [("p", JSVal.ref 1)], Node.obj [("q", JSVal.num 1)],
                 Node.obj [("q", JSVal.num 7)], Node.obj [("p", JSVal.ref 2)]],
                [3, 2], .ref 3)
     ∧ baseGet [Node.obj [("p", JSVal.ref 1)], Node.obj [("q", JSVal.num 1)],
                 Node.obj [("q", JSVal.num 7)], Node.obj [("p", JSVal.ref 2)]]
         (.ref 3) ([.str "p", .str "q"].take 1 ++ [.str "r"])
       = baseGet [Node.obj [("p", JSVal.ref 1)], Node.obj [("q", JSVal.num 1)]]
         (.ref 0) ([.str "p", .str "q"].take 1 ++ [.str "r"])) := by
  refine ⟨⟨by decide, by decide, by rfl, ?_⟩, ⟨by rfl, by rfl, ?_⟩⟩
  · exact c2_structural_sharing.1 [Node.obj [("a", JSVal.num 1), ("b", JSVal.num 2)]]
      [0] 0 (.str "a") (.str "b") (.num 9) _ _ _ (by decide) (by decide) (by rfl)
  · exact c2_structural_sharing.2
      [Node.obj [("p", JSVal.ref 1)], Node.obj [("q", JSVal.num 1)]] []
      [.str "p", .str "q"] (.ref 0) (.num 7) _ _ _ (by rfl) (by rfl) (by rfl)
      1 (by decide) (.str "r") (by decide)

/-- C5: round trip.  For a hierarchy with no dangling references, a path
whose keys fit the node kinds met along the descent (index keys on
sequence nodes), and any value `v`, if `assocIn` succeeds then reading the
same path back from the result yields exactly `v` — the identical value,
reference identity included. -/
theorem c5_roundtrip (st : Store) (fz : List Nat) (coll v : JSVal)
    (path : List Key) (st' : Store) (fz' : List Nat) (r' : JSVal)
    (hwf : storeWfB st = true) (hcoll : valRefsB st.length coll = true)
    (hfits : fitsB st coll path = true)
    (h : assocIn st fz coll path v = .ok (st', fz', r')) :
    baseGet st' r' path = .ok v :=
  assocIn_roundtrip_aux hwf hcoll hfits h st' (Ext.refl st')

/-- Witness for C5 on `{p: {q: 1}}` along `["p", "q"]` with value `7`. -/
theorem c5_witness :
    storeWfB [Node.obj [("p", JSVal.ref 1)], Node.obj [("q", JSVal.num 1)]] = true
    ∧ fitsB [Node.obj [("p", JSVal.ref 1)], Node.obj [("q", JSVal.num 1)]]
        (.ref 0) [.str "p", .str "q"] = true
    ∧ assocIn [Node.obj [("p", JSVal.ref 1)], Node.obj [("q", JSVal.num 1)]] []
        (.ref 0) [.str "p", .str "q"] (.num 7)
        = .ok ([Node.obj [("p", JSVal.ref 1)], Node.obj [("q", JSVal.num 1)],
                Node.obj [("q", JSVal.num 7)], Node.obj [("p", JSVal.ref 2)]],
               [3, 2], .ref 3)
    ∧ baseGet [Node.obj [("p", JSVal.ref 1)], Node.obj [("q", JSVal.num 1)],
                Node.obj [("q", JSVal.num 7)], Node.obj [("p", JSVal.ref 2)]]
        (.ref 3) [.str "p", .str "q"] = .ok (.num 7) := by
  refine ⟨by rfl, by rfl, by rfl, ?_⟩
  exact c5_roundtrip [Node.obj [("p", JSVal.ref 1)], Node.obj [("q", JSVal.num 1)]]
    [] (.ref 0) (.num 7) [.str "p", .str "q"] _ _ _ (by rfl) (by rfl) (by rfl) (by rfl)

/-! ### Reachability in the heap, and the behaviour of `baseFreeze` -/

/-- `y` is the address of a direct container child of the node at `x`. -/
abbrev stepsTo (st : Store) (x y : Nat) : Prop :=
  JSVal.ref y ∈ (nodeAt st x).vals

/-- `c` is reachable from `b` through container children (reflexive). -/
abbrev Reach (st : Store) : Nat → Nat → Prop :=
  Relation.ReflTransGen (stepsTo st)

/-- Some container reachable from `r` contains itself, directly or through
nested containers. -/
def HasCycle (st : Store) (r : Nat) : Prop :=
  ∃ b, Reach st r b ∧ Relation.TransGen (stepsTo st) b b

theorem nodeAt_oob {st : Store} {a : Nat} (h : st.length ≤ a) :
    nodeAt st a = default := by
  unfold nodeAt
  exact List.getD_eq_default _ _ h

theorem stepsTo_lt {st : Store} {x y : Nat} (h : stepsTo st x y) : x < st.length := by
  by_contra hx
  have h' : JSVal.ref y ∈ (nodeAt st x).vals := h
  rw [nodeAt_oob (Nat.le_of_not_lt hx)] at h'
  simp [Node.vals, default] at h'

theorem reach_lt {st : Store} (hwf : storeWfB st = true) :
    ∀ {b c : Nat}, b < st.length → Reach st b c → c < st.length := by
  intro b c hb h
  induction h with
  | refl => exact hb
  | tail hbc hstep ih =>
    have hmem := (List.all_eq_true.1 (nodeWfB_nodeAt hwf ih)) _ hstep
    simpa [valRefsB] using hmem

theorem reach_append {st t : Store} (hwf : storeWfB st = true) {b c : Nat}
    (hb : b < st.length) (h : Reach st b c) : Reach (st ++ t) b c := by
  induction h with
  | refl => exact Relation.ReflTransGen.refl
  | tail hbc hstep ih =>
    refine ih.tail ?_
    have hlt := stepsTo_lt hstep
    show JSVal.ref _ ∈ (nodeAt (st ++ t) _).vals
    rw [nodeAt_append t hlt]
    exact hstep

/-- Custom induction principle for `baseFreezeAux`: to prove `P` at every
`(a, prev)`, it suffices to prove each instance assuming `P` at every
child call `(b, a :: prev)` made when `a` is a fresh valid address. -/
theorem bf_ind (st : Store) (P : Nat → List Nat → Prop)
    (step : ∀ a prev, (a ∉ prev → a < st.length → ∀ b, P b (a :: prev)) → P a prev) :
    ∀ a prev, P a prev := by
  have key : ∀ k a prev, remCount st.length prev ≤ k → P a prev := by
    intro k
    induction k with
    | zero =>
      intro a prev hk
      apply step
      intro ha hlen b
      exact absurd (Nat.lt_of_lt_of_le (remCount_cons_lt hlen ha) hk)
        (Nat.not_lt_zero _)
    | succ k ih =>
      intro a prev hk
      apply step
      intro ha hlen b
      refine ih b (a :: prev) ?_
      have := remCount_cons_lt hlen ha
      omega
  intro a prev
  exact key (remCount st.length prev) a prev le_rfl

/-- The success/error shape of a `baseFreeze` result. -/
def bfShape : Except Err (List Nat) → Option Err
  | .ok _ => none
  | .error e => some e

theorem bfShape_none {r : Except Err (List Nat)} (h : bfShape r = none) :
    ∃ x, r = .ok x := by
  cases r with
  | ok x => exact ⟨x, rfl⟩
  | error e => exact absurd h (by simp [bfShape])

theorem fc_shape_irrel_aux (st : Store) (prev : List Nat)
    (ih : ∀ b fz1 fz2, bfShape (baseFreezeAux st b prev fz1)
      = bfShape (baseFreezeAux st b prev fz2)) :
    ∀ vs fz1 fz2, bfShape (freezeChildren st vs prev fz1)
      = bfShape (freezeChildren st vs prev fz2) := by
  intro vs
  induction vs with
  | nil => intro fz1 fz2; simp [freezeChildren, bfShape]
  | cons v rest ihv =>
    intro fz1 fz2
    cases v with
    | ref b =>
      have hsh := ih b fz1 fz2
      simp only [freezeChildren]
      cases h1 : baseFreezeAux st b prev fz1 with
      | ok fza =>
        cases h2 : baseFreezeAux st b prev fz2 with
        | ok fzb => exact ihv fza fzb
        | error e =>
          rw [h1, h2] at hsh
          exact absurd hsh (by simp [bfShape])
      | error e =>
        cases h2 : baseFreezeAux st b prev fz2 with
        | ok fzb =>
          rw [h1, h2] at hsh
          exact absurd hsh (by simp [bfShape])
        | error e2 =>
          rw [h1, h2] at hsh
          simp only [bfShape, Option.some.injEq] at hsh
          rw [hsh]
    | undef => simp only [freezeChildren]; exact ihv fz1 fz2
    | null => simp only [freezeChildren]; exact ihv fz1 fz2
    | num n => simp only [freezeChildren]; exact ihv fz1 fz2
    | bool b => simp only [freezeChildren]; exact ihv fz1 fz2

/-- The success/error shape of `baseFreeze` does not depend on the frozen
set it starts from (freezing never reads the frozen flags). -/
theorem bf_shape_irrel (st : Store) : ∀ a prev fz1 fz2,
    bfShape (baseFreezeAux st a prev fz1) = bfShape (baseFreezeAux st a prev fz2) := by
  have main := bf_ind st (fun a prev => ∀ fz1 fz2,
    bfShape (baseFreezeAux st a prev fz1) = bfShape (baseFreezeAux st a prev fz2)) ?_
  · exact main
  · intro a prev ih fz1 fz2
    by_cases ha : a ∈ prev
    · simp [baseFreezeAux, ha]
    · by_cases hlen : a < st.length
      · simp only [baseFreezeAux, ha, hlen, if_false, if_true, dif_pos]
        exact fc_shape_irrel_aux st (a :: prev) (ih ha hlen) _ (a :: fz1) (a :: fz2)
      · simp [baseFreezeAux, ha, hlen, bfShape]

theorem fc_no_typeError_aux (st : Store) (prev : List Nat)
    (ih : ∀ b fz e, baseFreezeAux st b prev fz = .error e → e = .cycleError) :
    ∀ vs fz e, freezeChildren st vs prev fz = .error e → e = .cycleError := by
  intro vs
  induction vs with
  | nil =>
    intro fz e h
    simp only [freezeChildren] at h
    exact Except.noConfusion h
  | cons v rest ihv =>
    intro fz e h
    cases v with
    | ref b =>
      simp only [freezeChildren] at h
      cases h1 : baseFreezeAux st b prev fz with
      | ok fza =>
        rw [h1] at h
        exact ihv fza e h
      | error e2 =>
        rw [h1] at h
        injection h with h'
        rw [← h']
        exact ih b fz e2 h1
    | undef => simp only [freezeChildren] at h; exact ihv fz e h
    | null => simp only [freezeChildren] at h; exact ihv fz e h
    | num n => simp only [freezeChildren] at h; exact ihv fz e h
    | bool b => simp only [freezeChildren] at h; exact ihv fz e h

/-- `baseFreeze` only ever throws the reference-cycle error. -/
theorem bf_no_typeError (st : Store) : ∀ a prev fz e,
    baseFreezeAux st a prev fz = .error e → e = .cycleError := by
  have main := bf_ind st (fun a prev => ∀ fz e,
    baseFreezeAux st a prev fz = .error e → e = .cycleError) ?_
  · exact main
  · intro a prev ih fz e h
    by_cases ha : a ∈ prev
    · simp only [baseFreezeAux, ha, if_true] at h
      injection h with h'
      exact h'.symm
    · by_cases hlen : a < st.length
      · simp only [baseFreezeAux, ha, hlen, if_false, dif_pos] at h
        exact fc_no_typeError_aux st (a :: prev) (ih ha hlen) _ (a :: fz) e h
      · simp only [baseFreezeAux, ha, hlen, if_false, dif_neg] at h
        exact Except.noConfusion h

theorem fc_ok_sub_aux (st : Store) (prev : List Nat)
    (ih : ∀ b fz fz', baseFreezeAux st b prev fz = .ok fz' →
      (∀ x, x ∈ fz → x ∈ fz') ∧ b ∈ fz' ∧ ∀ c, Reach st b c → c ∈ fz') :
    ∀ vs fz fz', freezeChildren st vs prev fz = .ok fz' →
      (∀ x, x ∈ fz → x ∈ fz') ∧
      ∀ v ∈ vs, ∀ b, v = .ref b → ∀ c, Reach st b c → c ∈ fz' := by
  intro vs
  induction vs with
  | nil =>
    intro fz fz' h
    simp only [freezeChildren, Except.ok.injEq] at h
    subst h
    exact ⟨fun x hx => hx, by simp⟩
  | cons v rest ihv =>
    intro fz fz' h
    cases v with
    | ref b =>
      simp only [freezeChildren] at h
      cases h1 : baseFreezeAux st b prev fz with
      | error e => rw [h1] at h; exact Except.noConfusion h
      | ok fza =>
        rw [h1] at h
        obtain ⟨hsub1, hb1, hcl1⟩ := ih b fz fza h1
        obtain ⟨hsub2, hcl2⟩ := ihv fza fz' h
        refine ⟨fun x hx => hsub2 x (hsub1 x hx), ?_⟩
        intro v hv b2 hvb c hc
        rcases List.mem_cons.1 hv with hv | hv
        · subst hv
          injection hvb with hb2
          subst hb2
          exact hsub2 c (hcl1 c hc)
        · exact hcl2 v hv b2 hvb c hc
    | undef =>
      simp only [freezeChildren] at h
      obtain ⟨hsub, hcl⟩ := ihv fz fz' h
      refine ⟨hsub, ?_⟩
      intro v hv b2 hvb c hc
      rcases List.mem_cons.1 hv with hv | hv
      · subst hv; exact JSVal.noConfusion hvb
      · exact hcl v hv b2 hvb c hc
    | null =>
      simp only [freezeChildren] at h
      obtain ⟨hsub, hcl⟩ := ihv fz fz' h
      refine ⟨hsub, ?_⟩
      intro v hv b2 hvb c hc
      rcases List.mem_cons.1 hv with hv | hv
      · subst hv; exact JSVal.noConfusion hvb
      · exact hcl v hv b2 hvb c hc
    | num n =>
      simp only [freezeChildren] at h
      obtain ⟨hsub, hcl⟩ := ihv fz fz' h
      refine ⟨hsub, ?_⟩
      intro v hv b2 hvb c hc
      rcases List.mem_cons.1 hv with hv | hv
      · subst hv; exact JSVal.noConfusion hvb
      · exact hcl v hv b2 hvb c hc
    | bool b0 =>
      simp only [freezeChildren] at h
      obtain ⟨hsub, hcl⟩ := ihv fz fz' h
      refine ⟨hsub, ?_⟩
      intro v hv b2 hvb c hc
      rcases List.mem_cons.1 hv with hv | hv
      · subst hv; exact JSVal.noConfusion hvb
      · exact hcl v hv b2 hvb c hc

/-- A successful `baseFreeze` run keeps the old frozen set and freezes the
visited address together with everything reachable from it. -/
theorem bf_ok_sub (st : Store) : ∀ a prev fz fz',
    baseFreezeAux st a prev fz = .ok fz' →
    (∀ x, x ∈ fz → x ∈ fz') ∧ a ∈ fz' ∧ ∀ c, Reach st a c → c ∈ fz' := by
  have main := bf_ind st (fun a prev => ∀ fz fz',
    baseFreezeAux st a prev fz = .ok fz' →
    (∀ x, x ∈ fz → x ∈ fz') ∧ a ∈ fz' ∧ ∀ c, Reach st a c → c ∈ fz') ?_
  · exact main
  · intro a prev ih fz fz' h
    by_cases ha : a ∈ prev
    · simp only [baseFreezeAux, ha, if_true] at h
      exact Except.noConfusion h
    · by_cases hlen : a < st.length
      · simp only [baseFreezeAux, ha, hlen, if_false, dif_pos] at h
        obtain ⟨hsub, hcl⟩ := fc_ok_sub_aux st (a :: prev) (ih ha hlen) _ (a :: fz) fz' h
        have hself : a ∈ fz' := hsub a (List.mem_cons_self a fz)
        refine ⟨fun x hx => hsub x (List.mem_cons_of_mem a hx), hself, ?_⟩
        intro c hc
        rcases Relation.ReflTransGen.cases_head hc with hc | ⟨b, hab, hbc⟩
        · subst hc; exact hself
        · exact hcl (.ref b) hab b rfl c hbc
      · simp only [baseFreezeAux, ha, hlen, if_false, dif_neg] at h
        injection h with h'
        subst h'
        refine ⟨fun x hx => List.mem_cons_of_mem a hx, List.mem_cons_self a fz, ?_⟩
        intro c hc
        rcases Relation.ReflTransGen.cases_head hc with hc | ⟨b, hab, _⟩
        · subst hc; exact List.mem_cons_self a fz
        · exact absurd (stepsTo_lt hab) hlen

theorem fc_ok_children_aux (st : Store) (prev : List Nat) :
    ∀ vs fz fz', freezeChildren st vs prev fz = .ok fz' →
    ∀ v ∈ vs, ∀ b, v = .ref b → ∃ fza fzb, baseFreezeAux st b prev fza = .ok fzb := by
  intro vs
  induction vs with
  | nil => intro fz fz' _ v hv; exact absurd hv (by simp)
  | cons v rest ihv =>
    intro fz fz' h w hw b hwb
    cases v with
    | ref b1 =>
      simp only [freezeChildren] at h
      cases h1 : baseFreezeAux st b1 prev fz with
      | error e => rw [h1] at h; exact Except.noConfusion h
      | ok fza =>
        rw [h1] at h
        rcases List.mem_cons.1 hw with hw | hw
        · subst hw
          injection hwb with hb
          subst hb
          exact ⟨fz, fza, h1⟩
        · exact ihv fza fz' h w hw b hwb
    | undef =>
      simp only [freezeChildren] at h
      rcases List.mem_cons.1 hw with hw | hw
      · subst hw; exact JSVal.noConfusion hwb
      · exact ihv fz fz' h w hw b hwb
    | null =>
      simp only [freezeChildren] at h
      rcases List.mem_cons.1 hw with hw | hw
      · subst hw; exact JSVal.noConfusion hwb
      · exact ihv fz fz' h w hw b hwb
    | num n =>
      simp only [freezeChildren] at h
      rcases List.mem_cons.1 hw with hw | hw
      · subst hw; exact JSVal.noConfusion hwb
      · exact ihv fz fz' h w hw b hwb
    | bool b0 =>
      simp only [freezeChildren] at h
      rcases List.mem_cons.1 hw with hw | hw
      · subst hw; exact JSVal.noConfusion hwb
      · exact ihv fz fz' h w hw b hwb

/-- A successful `baseFreeze` run implies its address was not an ancestor,
and every container-child call succeeds as well, from any frozen set. -/
theorem bf_ok_children (st : Store) {a : Nat} {prev fz fz' : List Nat}
    (h : baseFreezeAux st a prev fz = .ok fz') :
    a ∉ prev ∧ ∀ b, stepsTo st a b → ∀ fz2, ∃ fz3,
      baseFreezeAux st b (a :: prev) fz2 = .ok fz3 := by
  by_cases ha : a ∈ prev
  · rw [show baseFreezeAux st a prev fz = .error .cycleError by
      simp [baseFreezeAux, ha]] at h
    exact Except.noConfusion h
  · refine ⟨ha, ?_⟩
    intro b hb fz2
    have hlen : a < st.length := stepsTo_lt hb
    simp only [baseFreezeAux, ha, hlen, if_false, dif_pos] at h
    obtain ⟨fza, fzb, hab⟩ := fc_ok_children_aux st (a :: prev) _ (a :: fz) fz' h
      (.ref b) hb b rfl
    have hsh := bf_shape_irrel st b (a :: prev) fza fz2
    rw [hab] at hsh
    obtain ⟨fz3, h3⟩ := bfShape_none hsh.symm
    exact ⟨fz3, h3⟩

/-- A call that succeeds never reaches any of its recorded ancestors. -/
theorem bf_ok_no_reach_prev (st : Store) : ∀ a prev,
    (∃ fz fz', baseFreezeAux st a prev fz = .ok fz') →
    ∀ p ∈ prev, ¬ Reach st a p := by
  have main := bf_ind st (fun a prev =>
    (∃ fz fz', baseFreezeAux st a prev fz = .ok fz') →
    ∀ p ∈ prev, ¬ Reach st a p) ?_
  · exact main
  · intro a prev ih hok p hp hreach
    obtain ⟨fz, fz', hok'⟩ := hok
    obtain ⟨ha, hch⟩ := bf_ok_children st hok'
    rcases Relation.ReflTransGen.cases_head hreach with hr | ⟨b, hab, hbp⟩
    · subst hr; exact ha hp
    · have hlen : a < st.length := stepsTo_lt hab
      obtain ⟨fz3, h3⟩ := hch b hab []
      exact ih ha hlen b ⟨[], fz3, h3⟩ p (List.mem_cons_of_mem a hp) hbp

/-- A successful top-level `baseFreeze` run implies the reachable part of
the heap is acyclic. -/
theorem bf_ok_no_cycle (st : Store) {a : Nat} {fz fz' : List Nat}
    (hok : baseFreezeAux st a [] fz = .ok fz') :
    ∀ b, Reach st a b → ¬ Relation.TransGen (stepsTo st) b b := by
  have htrans : ∀ b, Reach st a b →
      ∃ prevb fzb fzb', baseFreezeAux st b prevb fzb = .ok fzb' := by
    intro b hr
    induction hr with
    | refl => exact ⟨[], fz, fz', hok⟩
    | tail hab hstep ih =>
      obtain ⟨pb, fzb, fzb', hokb⟩ := ih
      obtain ⟨_, hch⟩ := bf_ok_children st hokb
      obtain ⟨fz3, h3⟩ := hch _ hstep []
      exact ⟨_, [], fz3, h3⟩
  intro b hr hcyc
  obtain ⟨pb, fzb, fzb', hokb⟩ := htrans b hr
  obtain ⟨c, hbc, hcb⟩ := (Relation.TransGen.head'_iff).1 hcyc
  obtain ⟨_, hch⟩ := bf_ok_children st hokb
  obtain ⟨fz3, h3⟩ := hch c hbc []
  exact bf_ok_no_reach_prev st c (b :: pb) ⟨[], fz3, h3⟩ b
    (List.mem_cons_self b pb) hcb

theorem fc_ok_of_children_aux (st : Store) (prev : List Nat) :
    ∀ vs, (∀ v ∈ vs, ∀ b, v = .ref b → ∀ fz, ∃ fz',
      baseFreezeAux st b prev fz = .ok fz') →
    ∀ fz, ∃ fz', freezeChildren st vs prev fz = .ok fz' := by
  intro vs
  induction vs with
  | nil => intro _ fz; exact ⟨fz, by simp [freezeChildren]⟩
  | cons v rest ihv =>
    intro hvs fz
    cases v with
    | ref b =>
      obtain ⟨fza, h1⟩ := hvs (.ref b) (by simp) b rfl fz
      obtain ⟨fz', h2⟩ := ihv (fun w hw b2 hwb fz2 =>
        hvs w (List.mem_cons_of_mem _ hw) b2 hwb fz2) fza
      refine ⟨fz', ?_⟩
      simp only [freezeChildren]
      rw [h1]
      exact h2
    | undef =>
      obtain ⟨fz', h2⟩ := ihv (fun w hw b2 hwb fz2 =>
        hvs w (List.mem_cons_of_mem _ hw) b2 hwb fz2) fz
      exact ⟨fz', by simp only [freezeChildren]; exact h2⟩
    | null =>
      obtain ⟨fz', h2⟩ := ihv (fun w hw b2 hwb fz2 =>
        hvs w (List.mem_cons_of_mem _ hw) b2 hwb fz2) fz
      exact ⟨fz', by simp only [freezeChildren]; exact h2⟩
    | num n =>
      obtain ⟨fz', h2⟩ := ihv (fun w hw b2 hwb fz2 =>
        hvs w (List.mem_cons_of_mem _ hw) b2 hwb fz2) fz
      exact ⟨fz', by simp only [freezeChildren]; exact h2⟩
    | bool b0 =>
      obtain ⟨fz', h2⟩ := ihv (fun w hw b2 hwb fz2 =>
        hvs w (List.mem_cons_of_mem _ hw) b2 hwb fz2) fz
      exact ⟨fz', by simp only [freezeChildren]; exact h2⟩

/-- On an acyclic reachable part, `baseFreeze` succeeds. -/
theorem bf_acyclic_ok (st : Store) (r : Nat) (hnc : ¬ HasCycle st r) :
    ∀ fz, ∃ fz', baseFreezeAux st r [] fz = .ok fz' := by
  have main := bf_ind st (fun a prev =>
    (Reach st r a ∧ ∀ p ∈ prev, Relation.TransGen (stepsTo st) p a) →
    ∀ fz, ∃ fz', baseFreezeAux st a prev fz = .ok fz') ?_
  · intro fz
    exact main r [] ⟨Relation.ReflTransGen.refl, by simp⟩ fz
  · intro a prev ih hpre fz
    obtain ⟨hra, hanc⟩ := hpre
    by_cases ha : a ∈ prev
    · exact absurd ⟨a, hra, hanc a ha⟩ hnc
    · by_cases hlen : a < st.length
      · have hvs : ∀ v ∈ (nodeAt st a).vals, ∀ b, v = .ref b → ∀ fz2, ∃ fz',
            baseFreezeAux st b (a :: prev) fz2 = .ok fz' := by
          intro v hv b hvb fz2
          subst hvb
          have hstep : stepsTo st a b := hv
          refine ih ha hlen b ⟨hra.tail hstep, ?_⟩ fz2
          intro p hp
          rcases List.mem_cons.1 hp with hp | hp
          · subst hp; exact Relation.TransGen.single hstep
          · exact (hanc p hp).tail hstep
        obtain ⟨fz', h⟩ := fc_ok_of_children_aux st (a :: prev) _ hvs (a :: fz)
        refine ⟨fz', ?_⟩
        simp only [baseFreezeAux, ha, hlen, if_false, dif_pos]
        exact h
      · exact ⟨a :: fz, by simp [baseFreezeAux, ha, hlen]⟩

/-- C6: cycle detection.  `freeze` raises the cycle error exactly when
some container reachable from the root contains itself, directly or
through nested containers; on every acyclic hierarchy — including DAGs
where a subtree is shared by several parents without being its own
ancestor — it succeeds and returns the root itself. -/
theorem c6_freeze_cycle_detection (st : Store) (fz : List Nat) (a : Nat) :
    (HasCycle st a → freeze st fz (.ref a) = .error .cycleError)
    ∧ (¬ HasCycle st a → ∃ fz', freeze st fz (.ref a) = .ok (fz', .ref a)) := by
  constructor
  · intro hcyc
    obtain ⟨b, hr, hc⟩ := hcyc
    cases hb : baseFreezeAux st a [] fz with
    | ok fz' => exact absurd hc (bf_ok_no_cycle st hb b hr)
    | error e =>
      have he := bf_no_typeError st a [] fz e hb
      subst he
      simp [freeze, hb]
  · intro hnc
    obtain ⟨fz', h⟩ := bf_acyclic_ok st a hnc fz
    exact ⟨fz', by simp [freeze, h]⟩

/-- Witness for C6: `cyc = {}; cyc.self = cyc; freeze(cyc)` raises the
cycle error, while freezing an acyclic DAG (`{l: s, r: s}` sharing the
same `s = {v: 1}` under both keys) succeeds and returns the root. -/
theorem c6_witness :
    HasCycle [Node.obj [("self", JSVal.ref 0)]] 0
    ∧ freeze [Node.obj [("self", JSVal.ref 0)]] [] (.ref 0) = .error .cycleError
    ∧ ¬ HasCycle [Node.obj [("l", JSVal.ref 1), ("r", JSVal.ref 1)],
        Node.obj [("v", JSVal.num 1)]] 0
    ∧ ∃ fz', freeze [Node.obj [("l", JSVal.ref 1), ("r", JSVal.ref 1)],
        Node.obj [("v", JSVal.num 1)]] [] (.ref 0) = .ok (fz', .ref 0) := by
  have hc : HasCycle [Node.obj [("self", JSVal.ref 0)]] 0 :=
    ⟨0, Relation.ReflTransGen.refl, Relation.TransGen.single (by decide)⟩
  have hnc : ¬ HasCycle [Node.obj [("l", JSVal.ref 1), ("r", JSVal.ref 1)],
      Node.obj [("v", JSVal.num 1)]] 0 := by
    rintro ⟨b, hr, hcyc⟩
    -- only steps go from 0 to 1; no step leaves 1, so no transitive cycle
    have hstep1 : ∀ y, ¬ stepsTo [Node.obj [("l", JSVal.ref 1), ("r", JSVal.ref 1)],
        Node.obj [("v", JSVal.num 1)]] 1 y := by
      intro y hy
      have hy' : JSVal.ref y ∈ (Node.obj [("v", JSVal.num 1)]).vals := hy
      simp [Node.vals] at hy'
    have hstep0 : ∀ y, stepsTo [Node.obj [("l", JSVal.ref 1), ("r", JSVal.ref 1)],
        Node.obj [("v", JSVal.num 1)]] 0 y → y = 1 := by
      intro y hy
      have hy' : JSVal.ref y ∈ (Node.obj [("l", JSVal.ref 1), ("r", JSVal.ref 1)]).vals := hy
      simp [Node.vals] at hy'
      exact hy'
    -- from b, a transitive cycle starts with a step out of b
    obtain ⟨c, hbc, hcb⟩ := (Relation.TransGen.head'_iff).1 hcyc
    -- b is 0 or 1 (reachable from 0); in both cases derive a contradiction
    have hb01 : b = 0 ∨ b = 1 := by
      rcases Relation.ReflTransGen.cases_head hr with h | ⟨m, h0m, hmb⟩
      · exact Or.inl h.symm
      · have hm : m = 1 := hstep0 m h0m
        subst hm
        rcases Relation.ReflTransGen.cases_head hmb with h | ⟨m2, h1m, _⟩
        · exact Or.inr h.symm
        · exact absurd h1m (hstep1 m2)
    rcases hb01 with rfl | rfl
    · have hc1 : c = 1 := hstep0 c hbc
      subst hc1
      rcases Relation.ReflTransGen.cases_head hcb with h | ⟨m2, h1m, _⟩
      · exact absurd h (by decide)
      · exact absurd h1m (hstep1 m2)
    · exact absurd hbc (hstep1 c)
  refine ⟨hc, (c6_freeze_cycle_detection [Node.obj [("self", JSVal.ref 0)]] [] 0).1 hc,
    hnc, (c6_freeze_cycle_detection [Node.obj [("l", JSVal.ref 1), ("r", JSVal.ref 1)],
      Node.obj [("v", JSVal.num 1)]] [] 0).2 hnc⟩

/-- C7: attaching a value with `assoc`.  When the value is a container
that is not already frozen, `assoc` deep-freezes it — it and every
container reachable from it end up frozen — before attaching it; when it
is already frozen it is attached without touching the frozen set beyond
the new clone.  In both cases the attached value is exactly the same
object by identity (the same reference), never a copy. -/
theorem c7_assoc_freezes_value (st : Store) (fz : List Nat) (a b : Nat) (k : Key)
    (st' : Store) (fz' : List Nat) (r' : JSVal)
    (hwf : storeWfB st = true) (hb : b < st.length)
    (hfit : kindFitN (nodeAt st a) k = true)
    (h : assoc st fz (.ref a) k (.ref b) = .ok (st', fz', r')) :
    r' = .ref st.length
    ∧ getStep st' r' k = .ok (.ref b)
    ∧ b ∈ fz'
    ∧ (b ∉ fz → ∀ c, Reach st b c → c ∈ fz')
    ∧ (b ∈ fz → fz' = st.length :: fz) := by
  obtain ⟨a0, fz1, hcol, hfv, hst, hfz, hr⟩ := assoc_ok h
  injection hcol with ha0
  subst ha0
  subst hst hfz hr
  simp only [freezeValue] at hfv
  by_cases hbf : b ∈ fz
  · rw [if_pos hbf] at hfv
    injection hfv with hfv1
    subst hfv1
    refine ⟨rfl, ?_, List.mem_cons_of_mem _ hbf, fun hn => absurd hbf hn, fun _ => rfl⟩
    rw [getStep, nodeAt_append_len st _ [],
      Node.set_get_same (by rw [kindFitN_cloneNode]; exact hfit)]
  · rw [if_neg hbf] at hfv
    obtain ⟨hsub, hbmem, hcl⟩ := bf_ok_sub (st ++ [cloneNode (nodeAt st a)]) b [] fz fz1 hfv
    refine ⟨rfl, ?_, List.mem_cons_of_mem _ hbmem, ?_, fun hbf2 => absurd hbf2 hbf⟩
    · rw [getStep, nodeAt_append_len st _ [],
        Node.set_get_same (by rw [kindFitN_cloneNode]; exact hfit)]
    · intro _ c hc
      have hc' : Reach (st ++ [cloneNode (nodeAt st a)]) b c :=
        reach_append hwf hb hc
      exact List.mem_cons_of_mem _ (hcl c hc')

/-- Witness for C7: attaching the unfrozen `{y: 2}` to the frozen
`{x: 1}` deep-freezes it and stores the same reference. -/
theorem c7_witness :
    storeWfB [Node.obj [("x", JSVal.num 1)], Node.obj [("y", JSVal.num 2)]] = true
    ∧ (1 : Nat) < 2
    ∧ assoc [Node.obj [("x", JSVal.num 1)], Node.obj [("y", JSVal.num 2)]] [0]
        (.ref 0) (.str "k") (.ref 1)
        = .ok ([Node.obj [("x", JSVal.num 1)], Node.obj [("y", JSVal.num 2)],
                Node.obj [("x", JSVal.num 1), ("k", JSVal.ref 1)]], [2, 1, 0], .ref 2)
    ∧ getStep [Node.obj [("x", JSVal.num 1)], Node.obj [("y", JSVal.num 2)],
        Node.obj [("x", JSVal.num 1), ("k", JSVal.ref 1)]] (.ref 2) (.str "k")
        = .ok (.ref 1)
    ∧ (1 : Nat) ∈ ([2, 1, 0] : List Nat) := by
  have hcomp : assoc [Node.obj [("x", JSVal.num 1)], Node.obj [("y", JSVal.num 2)]] [0]
      (.ref 0) (.str "k") (.ref 1)
      = .ok ([Node.obj [("x", JSVal.num 1)], Node.obj [("y", JSVal.num 2)],
              Node.obj [("x", JSVal.num 1), ("k", JSVal.ref 1)]], [2, 1, 0], .ref 2) := by
    simp [assoc, clone, cloneNode, nodeAt, freezeValue, baseFreezeAux, freezeChildren,
      Node.vals, Node.set, setField, keyStr]
  have h := c7_assoc_freezes_value
    [Node.obj [("x", JSVal.num 1)], Node.obj [("y", JSVal.num 2)]] [0] 0 1 (.str "k")
    [Node.obj [("x", JSVal.num 1)], Node.obj [("y", JSVal.num 2)],
     Node.obj [("x", JSVal.num 1), ("k", JSVal.ref 1)]] [2, 1, 0] (.ref 2)
    (by rfl) (by decide) (by rfl) hcomp
  exact ⟨by rfl, by decide, hcomp, h.2.1, h.2.2.1⟩

/-- C4: non-mutation.  After `assoc`, `del`, `assocIn` or `updateIn` on a
frozen container, every node of the input store — in particular the input
container and all of its children, at every depth — is unchanged: the
operations only ever append freshly allocated nodes. -/
theorem c4_non_mutation (st : Store) (fz : List Nat) (a : Nat) (hfz : a ∈ fz) :
    (∀ (k : Key) (v : JSVal) st' fz' r',
      assoc st fz (.ref a) k v = .ok (st', fz', r') →
      ∀ b, b < st.length → nodeAt st' b = nodeAt st b)
    ∧ (∀ (k : Key) st' fz' r', del st fz (.ref a) k = .ok (st', fz', r') →
      ∀ b, b < st.length → nodeAt st' b = nodeAt st b)
    ∧ (∀ (path : List Key) (v : JSVal) st' fz' r',
        assocIn st fz (.ref a) path v = .ok (st', fz', r') →
        ∀ b, b < st.length → nodeAt st' b = nodeAt st b)
    ∧ (∀ (path : List Key) (f : JSVal → JSVal) st' fz' r',
        updateIn st fz (.ref a) path f = .ok (st', fz', r') →
        ∀ b, b < st.length → nodeAt st' b = nodeAt st b) := by
  refine ⟨?_, ?_, ?_, ?_⟩
  · intro k v st' fz' r' h b hb
    exact (assoc_ext h).nodeAt hb
  · intro k st' fz' r' h b hb
    obtain ⟨a0, _, rfl, _, _⟩ := del_ok h
    exact nodeAt_append _ hb
  · intro path v st' fz' r' h b hb
    exact (assocIn_ext h).nodeAt hb
  · intro path f st' fz' r' h b hb
    exact (updateIn_ext h).nodeAt hb

/-- Witness for C4 on the frozen `{a: 1}`: all four update operations
leave the input node untouched. -/
theorem c4_witness :
    (0 : Nat) ∈ ([0] : List Nat)
    ∧ (assoc [Node.obj [("a", JSVal.num 1)]] [0] (.ref 0) (.str "b") (.num 2)
        = .ok ([Node.obj [("a", JSVal.num 1)], Node.obj [("a", JSVal.num 1), ("b", JSVal.num 2)]],
               [1, 0], .ref 1)
      ∧ nodeAt [Node.obj [("a", JSVal.num 1)], Node.obj [("a", JSVal.num 1), ("b", JSVal.num 2)]] 0
        = nodeAt [Node.obj [("a", JSVal.num 1)]] 0)
    ∧ (del [Node.obj [("a", JSVal.num 1)]] [0] (.ref 0) (.str "a")
        = .ok ([Node.obj [("a", JSVal.num 1)], Node.obj []], [1, 0], .ref 1)
      ∧ nodeAt [Node.obj [("a", JSVal.num 1)], Node.obj []] 0
        = nodeAt [Node.obj [("a", JSVal.num 1)]] 0)
    ∧ (assocIn [Node.obj [("a", JSVal.num 1)]] [0] (.ref 0) [.str "a"] (.num 5)
        = .ok ([Node.obj [("a", JSVal.num 1)], Node.obj [("a", JSVal.num 5)]], [1, 0], .ref 1)
      ∧ nodeAt [Node.obj [("a", JSVal.num 1)], Node.obj [("a", JSVal.num 5)]] 0
        = nodeAt [Node.obj [("a", JSVal.num 1)]] 0)
    ∧ (updateIn [Node.obj [("a", JSVal.num 1)]] [0] (.ref 0) [.str "a"] (fun _ => .num 6)
        = .ok ([Node.obj [("a", JSVal.num 1)], Node.obj [("a", JSVal.num 6)]], [1, 0], .ref 1)
      ∧ nodeAt [Node.obj [("a", JSVal.num 1)], Node.obj [("a", JSVal.num 6)]] 0
        = nodeAt [Node.obj [("a", JSVal.num 1)]] 0) := by
  have h := c4_non_mutation [Node.obj [("a", JSVal.num 1)]] [0] 0 (by decide)
  exact ⟨by decide,
    ⟨by rfl, h.1 (.str "b") (.num 2) _ _ _ (by rfl) 0 (by decide)⟩,
    ⟨by rfl, h.2.1 (.str "a") _ _ _ (by rfl) 0 (by decide)⟩,
    ⟨by rfl, h.2.2.1 [.str "a"] (.num 5) _ _ _ (by rfl) 0 (by decide)⟩,
    ⟨by rfl, h.2.2.2 [.str "a"] (fun _ => .num 6) _ _ _ (by rfl) 0 (by decide)⟩⟩

end Icepick
